import Mathlib

/-!
Verification development for the whisper-sort-srt subtitle pipeline
(src/main.rs, src/utils.rs).

The Rust source is shallowly embedded as follows.

* `f64` time values are modelled as `ℚ` with exact arithmetic; the Rust
  float-to-integer `as` cast (truncation toward zero, saturating below at 0
  for unsigned targets) is `rustTrunc`/`asU32`, the `%` operator on floats
  is `fmod`, and `f64::round` (half away from zero) is `rustRound`.
* Rust `String`/`&str` values are Lean `String`s; `chars().count()` is
  `String.length`, `str::trim` is `rustTrim`, `str::lines` is `rustLines`,
  and `eq_ignore_ascii_case` is `eqIgnoreAsciiCase`.
* The external jieba tokenizer (`utils::chinese_tokenize`) is out of scope
  for the core (a black-box segmenter), so `split_text_by_punctuation`
  takes the token list it would have produced as an explicit argument.
* `words[0]` / `words[words.len()-1]` panic on an empty slice, so
  `split_text_by_punctuation` returns `Option`, with `none` for the panic.
* The two imperative loops of `match_segments` become the recursive
  functions `msOuter` (outer `while`) and `msInner` (inner `loop`);
  `msInner` returns how many token segments and words it consumed together
  with the updated flag vector, mirroring the `Vec::remove(0)` /
  iterator-consumption of the source.
-/

/-- `LINE_MAX_WORD_LENGTH` from src/main.rs: hard/soft maximum characters per line. -/
def LINE_MAX_WORD_LENGTH : Nat := 16

/-- `LINE_MIN_WORD_LENGTH` from src/main.rs: minimum characters before a
punctuation break is honoured. -/
def LINE_MIN_WORD_LENGTH : Nat := 10

/-- `LINE_MAX_DURATION` from src/main.rs: maximum seconds per line. -/
def LINE_MAX_DURATION : ℚ := 10

/-- `struct Word { start: f64, end: f64, word: String }` (the `end` field is
`end_` because `end` is a Lean keyword). -/
structure Word where
  start : ℚ
  end_ : ℚ
  word : String
deriving DecidableEq, Repr

/-- `struct SubtitleLine { text: String, start_time: f64, end_time: f64 }`. -/
structure SubtitleLine where
  text : String
  start_time : ℚ
  end_time : ℚ
deriving DecidableEq, Repr

/-- Truncation toward zero: the rounding used by Rust's float `as` integer
casts and by the fractional part discarded by float `%`. -/
def rustTrunc (x : ℚ) : ℤ := if 0 ≤ x then ⌊x⌋ else ⌈x⌉

/-- `as u32` on an `f64`: truncate toward zero, saturating below at 0 and
above at `u32::MAX`. -/
def asU32 (x : ℚ) : ℕ := min (rustTrunc x).toNat (2 ^ 32 - 1)

/-- Rust `%` on `f64`: remainder with the sign of the dividend,
`a - b * trunc(a / b)`. -/
def fmod (a b : ℚ) : ℚ := a - b * (rustTrunc (a / b) : ℚ)

/-- `f64::round`: round half away from zero. -/
def rustRound (x : ℚ) : ℤ := if 0 ≤ x then ⌊x + 1 / 2⌋ else ⌈x - 1 / 2⌉

/-- The decimal digit character for `d < 10`. -/
def digitChar (d : ℕ) : Char := Char.ofNat (48 + d)

/-- Fuel-driven decimal representation (most significant digit first);
the fuel argument makes the recursion structural. -/
def decReprAux : ℕ → ℕ → List Char
  | 0, _ => []
  | fuel + 1, n =>
    if n < 10 then [digitChar n] else decReprAux fuel (n / 10) ++ [digitChar (n % 10)]

/-- Decimal representation of a natural number, as produced by Rust's
`{}` formatting of an unsigned integer. -/
def decRepr (n : ℕ) : List Char := decReprAux (n + 1) n

/-- Zero padding to a minimum width, as in Rust's `{:02}` / `{:03}`. -/
def padZeros (width : ℕ) (s : List Char) : List Char :=
  List.replicate (width - s.length) '0' ++ s

/-- The `hours` component of `format_time`: `(seconds / 3600.0) as u32`. -/
def ft_hours (seconds : ℚ) : ℕ := asU32 (seconds / 3600)

/-- The `minutes` component of `format_time`: `((seconds % 3600.0) / 60.0) as u32`. -/
def ft_minutes (seconds : ℚ) : ℕ := asU32 (fmod seconds 3600 / 60)

/-- The `seconds_whole` component of `format_time`: `(seconds % 60.0) as u32`. -/
def ft_seconds_whole (seconds : ℚ) : ℕ := asU32 (fmod seconds 60)

/-- The `milliseconds` component of `format_time`:
`((seconds % 1.0) * 1000.0).round() as u32 / 10 * 10`. -/
def ft_milliseconds (seconds : ℚ) : ℕ :=
  (rustRound (fmod seconds 1 * 1000)).toNat / 10 * 10

/-- `format_time` from src/main.rs: seconds to `HH:MM:SS,mmm`
(`format!("{:02}:{:02}:{:02},{:03}", ...)`). -/
def format_time (seconds : ℚ) : String :=
  String.mk
    (padZeros 2 (decRepr (ft_hours seconds)) ++
      ':' :: padZeros 2 (decRepr (ft_minutes seconds)) ++
        ':' :: padZeros 2 (decRepr (ft_seconds_whole seconds)) ++
          ',' :: padZeros 3 (decRepr (ft_milliseconds seconds)))

/-- The `punctuation` array of `split_text_by_punctuation` (byte-for-byte the
character list of the source, including the duplicated ASCII quotes; the two
`\'` entries are written with `Char.ofNat 39`). -/
def punctuation : List Char :=
  ['，', ',', '。', '！', '？', '；', '：', '、', '…', '—', '（', '）', '《', '》',
    '"', '"', Char.ofNat 39, Char.ofNat 39, ' ']

/-- Rust `char::is_whitespace`: the Unicode `White_Space` property. -/
def rustIsWhitespace (c : Char) : Bool :=
  let n := c.toNat
  (9 ≤ n && n ≤ 13) || n == 32 || n == 0x85 || n == 0xA0 || n == 0x1680 ||
    (0x2000 ≤ n && n ≤ 0x200A) || n == 0x2028 || n == 0x2029 || n == 0x202F ||
      n == 0x205F || n == 0x3000

/-- Rust `str::trim`: drop leading and trailing whitespace characters. -/
def rustTrim (s : String) : String :=
  String.mk (((s.data.dropWhile rustIsWhitespace).reverse.dropWhile rustIsWhitespace).reverse)

/-- The `is_number` test of `split_text_by_punctuation`:
`word.word.chars().all(|c| c.is_ascii_digit() || c=='.' || c=='-')`. -/
def is_number (w : Word) : Bool :=
  w.word.data.all (fun c => c.isDigit || c == '.' || c == '-')

/-- The break guard of `split_text_by_punctuation`'s word walk:
punctuation with at least `LINE_MIN_WORD_LENGTH` accumulated characters, or
(`LINE_MAX_WORD_LENGTH` characters reached or `LINE_MAX_DURATION` exceeded)
for a non-numeric word whose tokenizer-alignment flag is set. -/
def breakCond (w : Word) (flag : Bool) (char_count : ℕ) (current_duration : ℚ) : Bool :=
  (w.word.data.any (fun c => punctuation.contains c) &&
      decide (LINE_MIN_WORD_LENGTH ≤ char_count)) ||
  ((decide (LINE_MAX_WORD_LENGTH ≤ char_count) ||
      decide (LINE_MAX_DURATION < current_duration)) && !is_number w && flag)

/-- The mutable locals of `split_text_by_punctuation`'s word walk. -/
structure SplitSt where
  result : List SubtitleLine
  current_line : String
  current_start : ℚ
  char_count : ℕ
deriving Repr

/-- The `for (i, word) in words.iter().enumerate()` walk of
`split_text_by_punctuation`, one list element per iteration; each word is
paired with its alignment flag `word_tokens[i]`. -/
def splitLoop : List (Word × Bool) → SplitSt → SplitSt
  | [], st => st
  | (w, flag) :: rest, st =>
    let word_len := w.word.length
    let current_duration := w.end_ - st.current_start
    let current_line := st.current_line ++ w.word
    let char_count := st.char_count + word_len
    if breakCond w flag char_count current_duration then
      splitLoop rest
        { result := st.result ++
            [{ text := rustTrim current_line,
               start_time := st.current_start,
               end_time := w.end_ }],
          current_line := "",
          current_start := match rest with
            | [] => st.current_start
            | (w2, _) :: _ => w2.start,
          char_count := 0 }
    else
      splitLoop rest { st with current_line := current_line, char_count := char_count }

/-- The general (non-fast-path) part of `split_text_by_punctuation`: the word
walk followed by the trailing-line handling (`// 处理最后一行`). -/
def split_general (words : List Word) (word_tokens : List Bool) : List SubtitleLine :=
  let stF := splitLoop (words.zip word_tokens)
    { result := [], current_line := "",
      current_start := match words with | [] => 0 | w :: _ => w.start,
      char_count := 0 }
  let lastEnd : ℚ := match words.getLast? with | some w => w.end_ | none => 0
  if stF.current_line.isEmpty then
    stF.result
  else
    match stF.result.getLast?, decide (stF.char_count ≤ LINE_MIN_WORD_LENGTH / 2) with
    | some last_line, true =>
      stF.result.dropLast ++
        [{ text := last_line.text ++ rustTrim stF.current_line,
           start_time := last_line.start_time,
           end_time := lastEnd }]
    | _, _ =>
      stF.result ++
        [{ text := rustTrim stF.current_line,
           start_time := stF.current_start,
           end_time := lastEnd }]

/-- The inner `loop` of `match_segments`: grow `v_acc`/`w_acc` until their
character counts agree, then mark `word_tokens[w_idx-1]`.  Returns how many
token segments and how many words were consumed, plus the updated flags. -/
def msInner (v_acc w_acc : List Char) (token_segments : List String)
    (word_segments : List Word) (w_idx : ℕ) (word_tokens : List Bool) :
    ℕ × ℕ × List Bool :=
  if v_acc.length = w_acc.length then
    (0, 0, word_tokens.set (w_idx - 1) true)
  else if w_acc.length < v_acc.length then
    match word_segments with
    | w :: ws =>
      let r := msInner v_acc (w_acc ++ w.word.data) token_segments ws (w_idx + 1) word_tokens
      (r.1, r.2.1 + 1, r.2.2)
    | [] => (0, 0, word_tokens)
  else
    match token_segments with
    | t :: ts =>
      let r := msInner (v_acc ++ t.data) w_acc ts word_segments w_idx word_tokens
      (r.1 + 1, r.2.1, r.2.2)
    | [] => (0, 0, word_tokens)
termination_by token_segments.length + word_segments.length
decreasing_by
  all_goals simp_arith

/-- The outer `while` of `match_segments`: as long as both sequences are
non-empty, pull one token segment and one word and run the inner loop. -/
def msOuter (token_segments : List String) (word_segments : List Word)
    (w_idx : ℕ) (word_tokens : List Bool) : List Bool :=
  match token_segments, word_segments with
  | t :: ts, w :: ws =>
    let r := msInner t.data w.word.data ts ws (w_idx + 1) word_tokens
    msOuter (ts.drop r.1) (ws.drop r.2.1) (w_idx + 1 + r.2.1) r.2.2
  | _, _ => word_tokens
termination_by token_segments.length + word_segments.length
decreasing_by
  simp only [List.length_drop, List.length_cons]
  omega

/-- `match_segments` from src/main.rs: align the tokenizer segments with the
timestamped words, marking each word that closes a segment. -/
def match_segments (token_segments : List String) (word_segments : List Word)
    (word_tokens : List Bool) : List Bool :=
  msOuter token_segments word_segments 0 word_tokens

/-- `split_text_by_punctuation` from src/main.rs.  `tokens` stands for
`utils::chinese_tokenize` applied to the concatenated word text (an external
black box).  `none` models the `words[0]` index panic on an empty slice. -/
def split_text_by_punctuation (words : List Word) (tokens : List String) :
    Option (List SubtitleLine) :=
  match words with
  | [] => none
  | w0 :: rest =>
    if words.length ≤ LINE_MAX_WORD_LENGTH then
      some [{ text := String.join (words.map Word.word),
              start_time := w0.start,
              end_time := ((w0 :: rest).getLast (List.cons_ne_nil w0 rest)).end_ }]
    else
      some (split_general words
        (match_segments tokens words (List.replicate words.length false)))

/-- ASCII lower-casing of a single character (identity on everything else). -/
def asciiLower (c : Char) : Char :=
  if 65 ≤ c.toNat && c.toNat ≤ 90 then Char.ofNat (c.toNat + 32) else c

/-- Rust `str::eq_ignore_ascii_case`. -/
def eqIgnoreAsciiCase (a b : String) : Bool :=
  a.data.map asciiLower == b.data.map asciiLower

/-- Split a character list at every newline character. -/
def splitOnNl : List Char → List (List Char)
  | [] => [[]]
  | c :: cs =>
    match splitOnNl cs with
    | seg :: segs => if c = '\n' then [] :: seg :: segs else (c :: seg) :: segs
    | [] => [[]]

/-- Rust `str::lines` (only its length is consumed by `merge_subtitles`, so
the `\r`-stripping of individual lines is irrelevant and omitted): split on
`'\n'`, a trailing final newline not opening a new line, the empty string
having no lines. -/
def rustLines (s : String) : List (List Char) :=
  let parts := splitOnNl s.data
  match parts.getLast? with
  | some [] => parts.dropLast
  | _ => parts

/-- The `while i < blocks.len()` walk of `merge_subtitles`: one list element
per iteration, carrying `merged_blocks` and `prev_need_merge`. -/
def mergeLoop : List SubtitleLine → List SubtitleLine → Bool → List SubtitleLine
  | [], merged_blocks, _ => merged_blocks
  | current :: rest, merged_blocks, prev_need_merge =>
    let duration := current.end_time - current.start_time
    let current_need_merge : Bool := decide (duration < 1)
    match merged_blocks.getLast? with
    | some prev =>
      let gap := current.start_time - prev.end_time
      if (prev_need_merge || current_need_merge) && decide (gap < 1) then
        if (rustLines prev.text).length < 2 then
          let combined_text :=
            if eqIgnoreAsciiCase prev.text current.text then prev.text
            else if prev.text.length + current.text.length ≤ LINE_MAX_WORD_LENGTH then
              prev.text ++ current.text
            else
              prev.text ++ "\n" ++ current.text
          mergeLoop rest
            (merged_blocks.dropLast ++
              [{ text := combined_text,
                 start_time := prev.start_time,
                 end_time := current.end_time }])
            false
        else
          mergeLoop rest (merged_blocks ++ [current]) current_need_merge
      else
        mergeLoop rest (merged_blocks ++ [current]) current_need_merge
    | none => mergeLoop rest (merged_blocks ++ [current]) current_need_merge

/-- `merge_subtitles` from src/main.rs: coalesce adjacent short/close blocks,
capped at two text lines per block. -/
def merge_subtitles (blocks : List SubtitleLine) : List SubtitleLine :=
  mergeLoop blocks [] false

/-- Total character count of a token-segment list. -/
def sumT (tokens : List String) : ℕ := (tokens.map String.length).sum

/-- Total character count of a word list. -/
def sumW (words : List Word) : ℕ := (words.map (fun w => w.word.length)).sum

/-- Characters in the first `k` token segments. -/
def cumT (tokens : List String) (k : ℕ) : ℕ := sumT (tokens.take k)

/-- Characters in the first `k` words. -/
def cumW (words : List Word) (k : ℕ) : ℕ := sumW (words.take k)

/-- `boundaryB tokens n` holds when `n` is the cumulative character count of
some non-empty prefix of the token-segment list — i.e. a linguistic-segment
boundary falls after exactly `n` characters. -/
def boundaryB (tokens : List String) (n : ℕ) : Bool :=
  (List.range tokens.length).any (fun j => cumT tokens (j + 1) == n)
/-! ### Helper lemmas -/

theorem mergeLoop_append_of_gap (rest : List SubtitleLine) :
    ∀ (acc : List SubtitleLine) (pnm : Bool),
    List.Chain' (fun a b => 1 ≤ b.start_time - a.end_time) (acc.getLast?.toList ++ rest) →
    mergeLoop rest acc pnm = acc ++ rest := by
  induction rest with
  | nil => intro acc pnm _; simp [mergeLoop]
  | cons c rest ih =>
    intro acc pnm hchain
    match hlast : acc.getLast? with
    | none =>
      have hchain' : List.Chain' (fun a b => 1 ≤ b.start_time - a.end_time)
          ((acc ++ [c]).getLast?.toList ++ rest) := by
        simpa [hlast] using hchain
      simp only [mergeLoop, hlast]
      rw [ih (acc ++ [c]) _ hchain']
      simp
    | some p =>
      have hgap : 1 ≤ c.start_time - p.end_time := by
        rw [hlast] at hchain
        exact (List.chain'_cons.mp hchain).1
      have hlt : decide (c.start_time - p.end_time < 1) = false := by
        simp [not_lt.mpr hgap]
      have hchain' : List.Chain' (fun a b => 1 ≤ b.start_time - a.end_time)
          ((acc ++ [c]).getLast?.toList ++ rest) := by
        rw [hlast] at hchain
        simpa using (List.chain'_cons.mp hchain).2
      simp only [mergeLoop, hlast, hlt, Bool.and_false, Bool.false_eq_true, if_false]
      rw [ih (acc ++ [c]) _ hchain']
      simp

theorem mergeLoop_append_of_lines (rest : List SubtitleLine) :
    ∀ (acc : List SubtitleLine) (pnm : Bool),
    (∀ p, acc.getLast? = some p → (rustLines p.text).length = 2) →
    (∀ b ∈ rest, (rustLines b.text).length = 2) →
    mergeLoop rest acc pnm = acc ++ rest := by
  induction rest with
  | nil => intro acc pnm _ _; simp [mergeLoop]
  | cons c rest ih =>
    intro acc pnm hacc hrest
    have hnext : ∀ p, (acc ++ [c]).getLast? = some p → (rustLines p.text).length = 2 := by
      intro p hp
      simp at hp
      subst hp
      exact hrest c (by simp)
    have hrest' : ∀ b ∈ rest, (rustLines b.text).length = 2 := fun b hb => hrest b (by simp [hb])
    match hlast : acc.getLast? with
    | none =>
      simp only [mergeLoop, hlast]
      rw [ih (acc ++ [c]) _ hnext hrest']
      simp
    | some p =>
      have h2 : (rustLines p.text).length = 2 := hacc p hlast
      have hnot : ¬((rustLines p.text).length < 2) := by omega
      simp only [mergeLoop, hlast]
      rcases Bool.eq_false_or_eq_true ((pnm || decide (c.end_time - c.start_time < 1)) &&
          decide (c.start_time - p.end_time < 1)) with hguard | hguard
      · rw [if_pos hguard, if_neg hnot, ih (acc ++ [c]) _ hnext hrest']
        simp
      · simp only [hguard, Bool.false_eq_true, if_false]
        rw [ih (acc ++ [c]) _ hnext hrest']
        simp

/-! ### Claims -/

/-- **C1** (no mid-segment breaks): in the word walk of
`split_text_by_punctuation`, when a word's tokenizer-alignment flag is
`false` the break guard reduces to the punctuation clause alone, so the
length/duration rule (character count ≥ `LINE_MAX_WORD_LENGTH` or duration >
`LINE_MAX_DURATION`) can never trigger a break at that word: a break fires at
a flag-`false` word exactly when the word contains a punctuation character
and the accumulated character count has reached `LINE_MIN_WORD_LENGTH`. -/
theorem breakCond_false_flag (w : Word) (char_count : ℕ) (current_duration : ℚ) :
    breakCond w false char_count current_duration = true ↔
      ((w.word.data.any fun c => punctuation.contains c) = true ∧
        LINE_MIN_WORD_LENGTH ≤ char_count) := by
  simp [breakCond]

/-- **C6** (fast path): for a non-empty word list of at most
`LINE_MAX_WORD_LENGTH` words, `split_text_by_punctuation` returns exactly one
`SubtitleLine`, concatenating all word texts and spanning the first word's
start to the last word's end. -/
theorem split_fast_path (words : List Word) (tokens : List String) (hne : words ≠ [])
    (hlen : words.length ≤ LINE_MAX_WORD_LENGTH) :
    split_text_by_punctuation words tokens =
      some [{ text := String.join (words.map Word.word),
              start_time := (words.head hne).start,
              end_time := (words.getLast hne).end_ }] := by
  match words with
  | w0 :: rest =>
    simp only [split_text_by_punctuation]
    rw [if_pos hlen]
    simp

/-- Witness for `split_fast_path`. -/
theorem split_fast_path_witness :
    split_text_by_punctuation [⟨0, 1, "ab"⟩, ⟨1, 2, "cd"⟩] [] =
      some [{ text := "abcd", start_time := 0, end_time := 2 }] := by
  have h := split_fast_path [⟨0, 1, "ab"⟩, ⟨1, 2, "cd"⟩] [] (by simp)
    (by simp [LINE_MAX_WORD_LENGTH])
  simpa [String.join] using h

/-- **C9** (empty-slice panic): `split_text_by_punctuation` indexes
`words[0]` with no emptiness guard; the embedding returns `none` exactly for
the empty word list (the panic), and for every non-empty input the panic
branch is unreachable and a result is produced. -/
theorem split_empty_words_panic :
    (∀ tokens : List String, split_text_by_punctuation [] tokens = none) ∧
    (∀ (words : List Word) (tokens : List String), words ≠ [] →
      (split_text_by_punctuation words tokens).isSome = true) := by
  refine ⟨fun tokens => rfl, fun words tokens hne => ?_⟩
  match words with
  | w :: rest =>
    simp only [split_text_by_punctuation]
    by_cases h : (w :: rest).length ≤ LINE_MAX_WORD_LENGTH
    · rw [if_pos h]; rfl
    · rw [if_neg h]; rfl

/-- Witness for `split_empty_words_panic`. -/
theorem split_empty_words_panic_witness :
    (split_text_by_punctuation [⟨0, 1, "a"⟩] []).isSome = true :=
  split_empty_words_panic.2 [⟨0, 1, "a"⟩] [] (by simp)

/-- **C10** (ASCII-case-insensitive collapse): when `merge_subtitles` merges
a block into the previously emitted block and the two texts agree up to
ASCII case (`eq_ignore_ascii_case`), the previous text is kept unchanged (no
concatenation, no new line) and only its `end_time` is extended to the
current block's `end_time`. -/
theorem merge_collapse_ascii_case (rest merged_blocks : List SubtitleLine)
    (prev current : SubtitleLine) (prev_need_merge : Bool)
    (hlast : merged_blocks.getLast? = some prev)
    (hguard : ((prev_need_merge || decide (current.end_time - current.start_time < 1)) &&
        decide (current.start_time - prev.end_time < 1)) = true)
    (hlines : (rustLines prev.text).length < 2)
    (heq : eqIgnoreAsciiCase prev.text current.text = true) :
    mergeLoop (current :: rest) merged_blocks prev_need_merge =
      mergeLoop rest
        (merged_blocks.dropLast ++
          [{ text := prev.text, start_time := prev.start_time,
             end_time := current.end_time }])
        false := by
  simp only [mergeLoop, hlast, hguard, if_true, if_pos hlines, heq]

/-- Witness for `merge_collapse_ascii_case`. -/
theorem merge_collapse_ascii_case_witness :
    mergeLoop [⟨"hi", 0.6, 0.9⟩] [⟨"Hi", 0, 0.5⟩] false =
      mergeLoop [] ([⟨"Hi", 0, 0.5⟩].dropLast ++
        [{ text := "Hi", start_time := 0, end_time := 0.9 }]) false := by
  have h := merge_collapse_ascii_case [] [⟨"Hi", 0, 0.5⟩] ⟨"Hi", 0, 0.5⟩ ⟨"hi", 0.6, 0.9⟩ false
    (by simp) (by norm_num) (by decide) (by decide)
  simpa using h

/-- **C7** (idempotent merge): re-running `merge_subtitles` on its own output
returns that output unchanged whenever every gap between consecutive output
blocks is at least 1.0 second, or every output block already has two text
lines. -/
theorem merge_idempotent_on_output (blocks : List SubtitleLine)
    (h : List.Chain' (fun a b => 1 ≤ b.start_time - a.end_time) (merge_subtitles blocks) ∨
      ∀ b ∈ merge_subtitles blocks, (rustLines b.text).length = 2) :
    merge_subtitles (merge_subtitles blocks) = merge_subtitles blocks := by
  rcases h with h | h
  · have := mergeLoop_append_of_gap (merge_subtitles blocks) [] false (by simpa using h)
    simpa [merge_subtitles] using this
  · have := mergeLoop_append_of_lines (merge_subtitles blocks) [] false (by simp)
      (fun b hb => h b hb)
    simpa [merge_subtitles] using this

/-- Witness for `merge_idempotent_on_output`. -/
theorem merge_idempotent_on_output_witness :
    merge_subtitles (merge_subtitles [⟨"x", 0, 2⟩]) = merge_subtitles [⟨"x", 0, 2⟩] :=
  merge_idempotent_on_output [⟨"x", 0, 2⟩]
    (Or.inl (by simp [merge_subtitles, mergeLoop]))
/-! ### Decimal-representation helper lemmas -/

theorem digitChar_isDigit (d : ℕ) (h : d < 10) : (digitChar d).isDigit = true := by
  interval_cases d <;> decide

theorem decReprAux_length (fuel : ℕ) : ∀ (n k : ℕ), n < fuel → n < 10 ^ k → 1 ≤ k →
    (decReprAux fuel n).length ≤ k := by
  induction fuel with
  | zero => intro n k h; omega
  | succ fuel ih =>
    intro n k hf hk h1
    rw [decReprAux]
    by_cases h10 : n < 10
    · rw [if_pos h10]; simpa using h1
    · rw [if_neg h10]
      simp only [List.length_append, List.length_cons, List.length_nil]
      have hk2 : 2 ≤ k := by
        rcases Nat.lt_or_ge k 2 with hlt | hge
        · exfalso
          have : k = 1 := by omega
          subst this
          simp at hk
          omega
        · exact hge
      have hn10 : n / 10 < fuel := by
        have := Nat.div_lt_self (show 0 < n by omega) (show 1 < 10 by norm_num)
        omega
      have hpow : n / 10 < 10 ^ (k - 1) := by
        have hsplit : 10 ^ k = 10 ^ (k - 1) * 10 := by
          conv_lhs => rw [show k = (k - 1) + 1 by omega]
          rw [pow_succ]
        refine (Nat.div_lt_iff_lt_mul (by norm_num)).mpr ?_
        omega
      have := ih (n / 10) (k - 1) hn10 hpow (by omega)
      omega

theorem decReprAux_mem_isDigit (fuel : ℕ) : ∀ (n : ℕ), ∀ c ∈ decReprAux fuel n,
    c.isDigit = true := by
  induction fuel with
  | zero => intro n c hc; simp [decReprAux] at hc
  | succ fuel ih =>
    intro n c hc
    rw [decReprAux] at hc
    by_cases h10 : n < 10
    · rw [if_pos h10] at hc
      simp at hc
      subst hc
      exact digitChar_isDigit n h10
    · rw [if_neg h10] at hc
      simp at hc
      rcases hc with hc | hc
      · exact ih (n / 10) c hc
      · subst hc
        exact digitChar_isDigit (n % 10) (Nat.mod_lt n (by norm_num))

theorem decRepr_length_le (n k : ℕ) (hk : n < 10 ^ k) (h1 : 1 ≤ k) :
    (decRepr n).length ≤ k :=
  decReprAux_length (n + 1) n k (by omega) hk h1

theorem padZeros_length (w : ℕ) (s : List Char) (h : s.length ≤ w) :
    (padZeros w s).length = w := by
  simp [padZeros]
  omega

theorem padZeros_mem_isDigit (w : ℕ) (s : List Char)
    (hs : ∀ c ∈ s, c.isDigit = true) : ∀ c ∈ padZeros w s, c.isDigit = true := by
  intro c hc
  simp only [padZeros, List.mem_append] at hc
  rcases hc with hc | hc
  · rcases List.eq_of_mem_replicate hc with rfl
    decide
  · exact hs c hc

/-! ### Bounds on the `format_time` components -/

theorem fmod_bounds (a b : ℚ) (ha : 0 ≤ a) (hb : 0 < b) :
    0 ≤ fmod a b ∧ fmod a b < b := by
  have hab : 0 ≤ a / b := div_nonneg ha hb.le
  rw [fmod, rustTrunc, if_pos hab]
  have h1 : (⌊a / b⌋ : ℚ) * b ≤ a := by
    have := Int.floor_le (a / b)
    calc (⌊a / b⌋ : ℚ) * b ≤ a / b * b := by nlinarith
    _ = a := div_mul_cancel₀ a hb.ne'
  have h2 : a < ((⌊a / b⌋ : ℚ) + 1) * b := by
    have := Int.lt_floor_add_one (a / b)
    calc a = a / b * b := (div_mul_cancel₀ a hb.ne').symm
    _ < ((⌊a / b⌋ : ℚ) + 1) * b := by nlinarith
  constructor
  · nlinarith
  · nlinarith

theorem asU32_lt_of_lt (x : ℚ) (n : ℕ) (hn : x < (n : ℚ)) (h1 : 1 ≤ n) : asU32 x < n := by
  rw [asU32, rustTrunc]
  by_cases hx : 0 ≤ x
  · rw [if_pos hx]
    have hfl : ⌊x⌋ < (n : ℤ) := by
      rw [Int.floor_lt]
      exact_mod_cast hn
    have : (⌊x⌋).toNat < n := by omega
    omega
  · rw [if_neg hx]
    have hce : ⌈x⌉ ≤ 0 := Int.ceil_le.mpr (by exact_mod_cast le_of_not_le hx)
    have : (⌈x⌉).toNat = 0 := by omega
    omega

theorem ft_hours_lt (s : ℚ) (h : s < 360000) : ft_hours s < 100 := by
  refine asU32_lt_of_lt _ _ ?_ (by norm_num)
  rw [div_lt_iff₀ (by norm_num : (0:ℚ) < 3600)]
  push_cast
  linarith

theorem ft_minutes_lt (s : ℚ) (hs : 0 ≤ s) : ft_minutes s < 60 := by
  refine asU32_lt_of_lt _ _ ?_ (by norm_num)
  have h := (fmod_bounds s 3600 hs (by norm_num)).2
  rw [div_lt_iff₀ (by norm_num : (0:ℚ) < 60)]
  push_cast
  linarith

theorem ft_seconds_whole_lt (s : ℚ) (hs : 0 ≤ s) : ft_seconds_whole s < 60 := by
  refine asU32_lt_of_lt _ _ ?_ (by norm_num)
  have h := (fmod_bounds s 60 hs (by norm_num)).2
  push_cast
  linarith

theorem ft_milliseconds_lt (s : ℚ) (h : rustRound (fmod s 1 * 1000) < 1000) :
    ft_milliseconds s < 1000 := by
  rw [ft_milliseconds]
  have h1 : (rustRound (fmod s 1 * 1000)).toNat < 1000 := by omega
  have h2 : (rustRound (fmod s 1 * 1000)).toNat / 10 * 10 ≤
      (rustRound (fmod s 1 * 1000)).toNat := Nat.div_mul_le_self _ _
  omega

/-! ### Claim C8 -/

/-- **C8 counterexample**: the claim asserts that for every non-negative
seconds value `format_time` returns a string of the exact shape
`HH:MM:SS,mmm` (12 characters, two-digit zero-padded hours).  At
`seconds = 360000` the hours component is 100, the output is
`"100:00:00,000"`, and the string has 13 characters, not 12. -/
theorem format_time_shape_cex :
    format_time 360000 = "100:00:00,000" ∧ (format_time 360000).length ≠ 12 := by
  have h : format_time 360000 = "100:00:00,000" := by
    norm_num [format_time, ft_hours, ft_minutes, ft_seconds_whole, ft_milliseconds,
      asU32, rustTrunc, fmod, rustRound]
    decide
  exact ⟨h, by rw [h]; decide⟩

/-- **C8 amended**: `format_time` produces
`pad2 hours ++ ":" ++ pad2 minutes ++ ":" ++ pad2 seconds ++ "," ++ pad3 ms`
with minutes and whole seconds always below 60; when additionally
`seconds < 360000` (hours below 100) and the rounded milliseconds stay below
1000, all four fields have their nominal widths (2/2/2/3 digit characters),
i.e. the exact `HH:MM:SS,mmm` shape; the millisecond value is always a
multiple of 10 (round to nearest, then floor to a multiple of 10); and the
two concrete evaluations of the claim hold:
`format_time 3661.2396 = "01:01:01,240"` and
`format_time 0 = "00:00:00,000"`. -/
theorem format_time_shape_amended :
    (∀ s : ℚ, 0 ≤ s → s < 360000 → rustRound (fmod s 1 * 1000) < 1000 →
      ∃ hh mm ss ms : List Char,
        format_time s = String.mk (hh ++ ':' :: mm ++ ':' :: ss ++ ',' :: ms) ∧
        hh.length = 2 ∧ mm.length = 2 ∧ ss.length = 2 ∧ ms.length = 3 ∧
        (∀ c ∈ hh ++ mm ++ ss ++ ms, c.isDigit = true) ∧
        ft_milliseconds s % 10 = 0) ∧
    format_time 3661.2396 = "01:01:01,240" ∧
    format_time 0 = "00:00:00,000" := by
  refine ⟨?_, ?_, ?_⟩
  · intro s hs h360 hms
    refine ⟨padZeros 2 (decRepr (ft_hours s)), padZeros 2 (decRepr (ft_minutes s)),
      padZeros 2 (decRepr (ft_seconds_whole s)), padZeros 3 (decRepr (ft_milliseconds s)),
      rfl, ?_, ?_, ?_, ?_, ?_, ?_⟩
    · exact padZeros_length 2 _ (decRepr_length_le _ 2 (by simpa using ft_hours_lt s h360) (by norm_num))
    · exact padZeros_length 2 _ (decRepr_length_le _ 2 (by
        have := ft_minutes_lt s hs
        norm_num
        omega) (by norm_num))
    · exact padZeros_length 2 _ (decRepr_length_le _ 2 (by
        have := ft_seconds_whole_lt s hs
        norm_num
        omega) (by norm_num))
    · exact padZeros_length 3 _ (decRepr_length_le _ 3 (by
        have := ft_milliseconds_lt s hms
        norm_num
        omega) (by norm_num))
    · intro c hc
      simp only [List.mem_append] at hc
      rcases hc with ((hc | hc) | hc) | hc <;>
        exact padZeros_mem_isDigit _ _ (decReprAux_mem_isDigit _ _) c hc
    · rw [ft_milliseconds]
      exact Nat.mul_mod_left _ _
  · norm_num [format_time, ft_hours, ft_minutes, ft_seconds_whole, ft_milliseconds,
      asU32, rustTrunc, fmod, rustRound]
    decide
  · norm_num [format_time, ft_hours, ft_minutes, ft_seconds_whole, ft_milliseconds,
      asU32, rustTrunc, fmod, rustRound]
    decide

/-- Witness for `format_time_shape_amended`: the shape clause instantiated at
`3661.2396`. -/
theorem format_time_shape_amended_witness :
    ∃ hh mm ss ms : List Char,
      format_time 3661.2396 = String.mk (hh ++ ':' :: mm ++ ':' :: ss ++ ',' :: ms) ∧
      hh.length = 2 ∧ mm.length = 2 ∧ ss.length = 2 ∧ ms.length = 3 ∧
      (∀ c ∈ hh ++ mm ++ ss ++ ms, c.isDigit = true) ∧
      ft_milliseconds 3661.2396 % 10 = 0 :=
  format_time_shape_amended.1 3661.2396 (by norm_num) (by norm_num)
    (by norm_num [rustRound, fmod, rustTrunc])
theorem msInner_flags_length (v_acc w_acc : List Char) (token_segments : List String)
    (word_segments : List Word) (w_idx : ℕ) (word_tokens : List Bool) :
    (msInner v_acc w_acc token_segments word_segments w_idx word_tokens).2.2.length =
      word_tokens.length := by
  induction v_acc, w_acc, token_segments, word_segments, w_idx, word_tokens using msInner.induct
  case case1 v w ts ws wi f h =>
    rw [msInner.eq_def, if_pos h]
    simp
  case case2 v w ts wi f h1 h2 wd ws ih =>
    rw [msInner.eq_def, if_neg h1, if_pos h2]
    exact ih
  case case3 v w ts wi f h1 h2 =>
    rw [msInner.eq_def, if_neg h1, if_pos h2]
  case case4 v w ws wi f h1 h2 t ts ih =>
    rw [msInner.eq_def, if_neg h1, if_neg h2]
    exact ih
  case case5 v w ws wi f h1 h2 =>
    rw [msInner.eq_def, if_neg h1, if_neg h2]

theorem msOuter_flags_length (token_segments : List String) (word_segments : List Word)
    (w_idx : ℕ) (word_tokens : List Bool) :
    (msOuter token_segments word_segments w_idx word_tokens).length = word_tokens.length := by
  induction token_segments, word_segments, w_idx, word_tokens using msOuter.induct
  case case1 wi f t ts w ws r ih =>
    rw [msOuter]
    exact ih.trans (msInner_flags_length _ _ _ _ _ _)
  case case2 tokens words wi f h =>
    rw [msOuter]
    exact h

theorem match_segments_length (token_segments : List String) (word_segments : List Word)
    (word_tokens : List Bool) :
    (match_segments token_segments word_segments word_tokens).length = word_tokens.length :=
  msOuter_flags_length _ _ _ _
/-! ### Time-ordering facts for the Line Splitter -/

theorem start_le_getLast_start (l : List Word) (hne : l ≠ [])
    (hsorted : l.Pairwise (fun a b => a.start ≤ b.start)) :
    ∀ w ∈ l, w.start ≤ (l.getLast hne).start := by
  induction l with
  | nil => cases hne rfl
  | cons w0 rest ih =>
    intro w hw
    rcases List.mem_cons.mp hw with rfl | hw
    · cases rest with
      | nil => simp [List.getLast]
      | cons r1 rest2 =>
        rw [List.getLast_cons (List.cons_ne_nil r1 rest2)]
        exact (List.pairwise_cons.mp hsorted).1 _
          (List.getLast_mem (List.cons_ne_nil r1 rest2))
    · cases rest with
      | nil => cases hw
      | cons r1 rest2 =>
        rw [List.getLast_cons (List.cons_ne_nil r1 rest2)]
        exact ih (List.cons_ne_nil r1 rest2) (List.pairwise_cons.mp hsorted).2 w hw

theorem pairwise_zip_fst {words : List Word} {flags : List Bool}
    (h : words.Pairwise (fun a b => a.start ≤ b.start))
    (hlen : words.length ≤ flags.length) :
    (words.zip flags).Pairwise (fun a b => a.1.start ≤ b.1.start) := by
  have hmap : (words.zip flags).map Prod.fst = words := List.map_fst_zip words flags hlen
  rw [← hmap, List.pairwise_map] at h
  exact h

theorem splitLoop_time (ps : List (Word × Bool)) :
    ∀ (st : SplitSt) (lastEnd : ℚ),
    (∀ l ∈ st.result, l.start_time ≤ l.end_time ∧ l.start_time ≤ lastEnd) →
    st.current_start ≤ lastEnd →
    (∀ p ∈ ps, st.current_start ≤ p.1.start) →
    (∀ p ∈ ps, p.1.start ≤ p.1.end_) →
    (∀ p ∈ ps, p.1.start ≤ lastEnd) →
    ps.Pairwise (fun a b => a.1.start ≤ b.1.start) →
    (∀ l ∈ (splitLoop ps st).result, l.start_time ≤ l.end_time ∧ l.start_time ≤ lastEnd) ∧
    (splitLoop ps st).current_start ≤ lastEnd := by
  induction ps with
  | nil =>
    intro st lastEnd h1 h2 _ _ _ _
    exact ⟨h1, h2⟩
  | cons p rest ih =>
    obtain ⟨w, flag⟩ := p
    intro st lastEnd hres hcs hcs_all hse hle hsorted
    simp only [splitLoop]
    by_cases hb : breakCond w flag (st.char_count + w.word.length) (w.end_ - st.current_start) = true
    · rw [if_pos hb]
      have hnew : ∀ l ∈ st.result ++
          [{ text := rustTrim (st.current_line ++ w.word),
             start_time := st.current_start, end_time := w.end_ : SubtitleLine }],
          l.start_time ≤ l.end_time ∧ l.start_time ≤ lastEnd := by
        intro l hl
        rcases List.mem_append.mp hl with hl | hl
        · exact hres l hl
        · rcases List.mem_singleton.mp hl with rfl
          refine ⟨?_, hcs⟩
          calc st.current_start ≤ w.start := hcs_all (w, flag) (List.mem_cons_self _ _)
          _ ≤ w.end_ := hse (w, flag) (List.mem_cons_self _ _)
      cases rest with
      | nil =>
        simp only [splitLoop]
        exact ⟨hnew, hcs⟩
      | cons q0 rest2 =>
        apply ih
        · exact hnew
        · exact hle q0 (by simp)
        · intro q hq
          rcases List.mem_cons.mp hq with rfl | hq
          · exact le_refl _
          · exact (List.pairwise_cons.mp (List.pairwise_cons.mp hsorted).2).1 q hq
        · intro q hq; exact hse q (List.mem_cons_of_mem _ hq)
        · intro q hq; exact hle q (List.mem_cons_of_mem _ hq)
        · exact (List.pairwise_cons.mp hsorted).2
    · rw [if_neg hb]
      apply ih
      · exact hres
      · exact hcs
      · intro q hq; exact hcs_all q (List.mem_cons_of_mem _ hq)
      · intro q hq; exact hse q (List.mem_cons_of_mem _ hq)
      · intro q hq; exact hle q (List.mem_cons_of_mem _ hq)
      · exact (List.pairwise_cons.mp hsorted).2

theorem split_general_time (words : List Word) (flags : List Bool)
    (hlen : words.length ≤ flags.length)
    (hsorted : words.Pairwise (fun a b => a.start ≤ b.start))
    (hse : ∀ w ∈ words, w.start ≤ w.end_) :
    ∀ l ∈ split_general words flags, l.start_time ≤ l.end_time := by
  cases words with
  | nil =>
    intro l hl
    simp [split_general, splitLoop] at hl
    exact absurd hl.1 (by decide)
  | cons w0 rest =>
    have hne : w0 :: rest ≠ [] := List.cons_ne_nil _ _
    set wl := (w0 :: rest).getLast hne with hwl
    have hlast? : (w0 :: rest).getLast? = some wl := List.getLast?_eq_getLast _ hne
    have hstart_le : ∀ w ∈ w0 :: rest, w.start ≤ wl.end_ := by
      intro w hw
      calc w.start ≤ wl.start := start_le_getLast_start _ hne hsorted w hw
      _ ≤ wl.end_ := hse wl (List.getLast_mem hne)
    have hzip_mem : ∀ p ∈ (w0 :: rest).zip flags, p.1 ∈ w0 :: rest := by
      intro p hp
      obtain ⟨a, b⟩ := p
      exact (List.of_mem_zip hp).1
    have hw0_le : ∀ w ∈ w0 :: rest, w0.start ≤ w.start := by
      intro w hw
      rcases List.mem_cons.mp hw with rfl | hw
      · exact le_refl _
      · exact (List.pairwise_cons.mp hsorted).1 w hw
    have hmain := splitLoop_time ((w0 :: rest).zip flags)
      { result := [], current_line := "", current_start := w0.start, char_count := 0 }
      wl.end_
      (by intro l hl; cases hl)
      (hstart_le w0 (List.mem_cons_self _ _))
      (fun p hp => hw0_le p.1 (hzip_mem p hp))
      (fun p hp => hse p.1 (hzip_mem p hp))
      (fun p hp => hstart_le p.1 (hzip_mem p hp))
      (pairwise_zip_fst hsorted hlen)
    intro l hl
    simp only [split_general, hlast?] at hl
    rcases hmain with ⟨hres, hcs⟩
    by_cases hemp :
        (splitLoop ((w0 :: rest).zip flags)
          { result := [], current_line := "", current_start := w0.start,
            char_count := 0 }).current_line.isEmpty = true
    · rw [if_pos hemp] at hl
      exact (hres l hl).1
    · rw [if_neg hemp] at hl
      cases hg : (splitLoop ((w0 :: rest).zip flags)
          { result := [], current_line := "", current_start := w0.start,
            char_count := 0 }).result.getLast? with
      | none =>
        rw [hg] at hl
        simp only [List.mem_append, List.mem_singleton] at hl
        rcases hl with hl | rfl
        · exact (hres l hl).1
        · exact hcs
      | some last_line =>
        rw [hg] at hl
        cases hd : decide ((splitLoop ((w0 :: rest).zip flags)
            { result := [], current_line := "", current_start := w0.start,
              char_count := 0 }).char_count ≤ LINE_MIN_WORD_LENGTH / 2) with
        | false =>
          rw [hd] at hl
          simp only [List.mem_append, List.mem_singleton] at hl
          rcases hl with hl | rfl
          · exact (hres l hl).1
          · exact hcs
        | true =>
          rw [hd] at hl
          simp only [List.mem_append, List.mem_singleton] at hl
          rcases hl with hl | rfl
          · exact (hres l ((List.dropLast_sublist _).subset hl)).1
          · exact (hres last_line (List.mem_of_getLast?_eq_some hg)).2

theorem mergeLoop_time (rest : List SubtitleLine) :
    ∀ (acc : List SubtitleLine) (pnm : Bool),
    (∀ b ∈ acc, b.start_time ≤ b.end_time) →
    acc.Pairwise (fun a b => a.start_time ≤ b.start_time) →
    (∀ b ∈ rest, b.start_time ≤ b.end_time) →
    rest.Pairwise (fun a b => a.start_time ≤ b.start_time) →
    (∀ a ∈ acc, ∀ c ∈ rest, a.start_time ≤ c.start_time) →
    (∀ b ∈ mergeLoop rest acc pnm, b.start_time ≤ b.end_time) ∧
    (mergeLoop rest acc pnm).Pairwise (fun a b => a.start_time ≤ b.start_time) ∧
    ((mergeLoop rest acc pnm).map SubtitleLine.start_time).Sublist
      ((acc ++ rest).map SubtitleLine.start_time) := by
  induction rest with
  | nil =>
    intro acc pnm hacc_se hacc_pw _ _ _
    simp only [mergeLoop, List.append_nil]
    exact ⟨hacc_se, hacc_pw, List.Sublist.refl _⟩
  | cons c rest ih =>
    intro acc pnm hacc_se hacc_pw hrest_se hrest_pw hcross
    have hpush : ∀ b : Bool,
        (∀ x ∈ mergeLoop rest (acc ++ [c]) b, x.start_time ≤ x.end_time) ∧
        (mergeLoop rest (acc ++ [c]) b).Pairwise (fun a b => a.start_time ≤ b.start_time) ∧
        ((mergeLoop rest (acc ++ [c]) b).map SubtitleLine.start_time).Sublist
          ((acc ++ c :: rest).map SubtitleLine.start_time) := by
      intro b
      have h := ih (acc ++ [c]) b
        (by
          intro x hx
          rcases List.mem_append.mp hx with hx | hx
          · exact hacc_se x hx
          · rcases List.mem_singleton.mp hx with rfl
            exact hrest_se _ (List.mem_cons_self _ _))
        (List.pairwise_append.mpr ⟨hacc_pw, List.pairwise_singleton _ _,
          fun a ha x hx => by
            rcases List.mem_singleton.mp hx with rfl
            exact hcross a ha _ (List.mem_cons_self _ _)⟩)
        (fun x hx => hrest_se x (List.mem_cons_of_mem _ hx))
        ((List.pairwise_cons.mp hrest_pw).2)
        (by
          intro a ha c2 hc2
          rcases List.mem_append.mp ha with ha | ha
          · exact hcross a ha c2 (List.mem_cons_of_mem _ hc2)
          · rcases List.mem_singleton.mp ha with rfl
            exact (List.pairwise_cons.mp hrest_pw).1 c2 hc2)
      refine ⟨h.1, h.2.1, ?_⟩
      have h3 := h.2.2
      rwa [List.append_assoc, List.singleton_append] at h3
    cases hlast : acc.getLast? with
    | none =>
      simp only [mergeLoop, hlast]
      exact hpush _
    | some p =>
      have hp_mem : p ∈ acc := List.mem_of_getLast?_eq_some hlast
      simp only [mergeLoop, hlast]
      have hdecomp : acc.dropLast ++ [p] = acc :=
        List.dropLast_append_getLast? p (Option.mem_def.mpr hlast)
      rcases Bool.eq_false_or_eq_true ((pnm || decide (c.end_time - c.start_time < 1)) &&
          decide (c.start_time - p.end_time < 1)) with hguard | hguard
      · rw [if_pos hguard]
        by_cases hlines : (rustLines p.text).length < 2
        · rw [if_pos hlines]
          have hps : p.start_time ≤ c.start_time := hcross p hp_mem c (List.mem_cons_self _ _)
          have hacc2_se : ∀ x ∈ acc.dropLast ++
              [{ text := if eqIgnoreAsciiCase p.text c.text = true then p.text
                  else if p.text.length + c.text.length ≤ LINE_MAX_WORD_LENGTH then
                    p.text ++ c.text
                  else p.text ++ "\n" ++ c.text,
                 start_time := p.start_time, end_time := c.end_time : SubtitleLine }],
              x.start_time ≤ x.end_time := by
            intro x hx
            rcases List.mem_append.mp hx with hx | hx
            · exact hacc_se x ((List.dropLast_sublist _).subset hx)
            · rcases List.mem_singleton.mp hx with rfl
              exact hps.trans (hrest_se c (List.mem_cons_self _ _))
          have hacc_pw' := hacc_pw
          rw [← hdecomp] at hacc_pw'
          have hcrossp : ∀ a ∈ acc.dropLast, a.start_time ≤ p.start_time := by
            intro a ha
            exact (List.pairwise_append.mp hacc_pw').2.2 a ha p (List.mem_singleton_self _)
          have h := ih (acc.dropLast ++
              [{ text := if eqIgnoreAsciiCase p.text c.text = true then p.text
                  else if p.text.length + c.text.length ≤ LINE_MAX_WORD_LENGTH then
                    p.text ++ c.text
                  else p.text ++ "\n" ++ c.text,
                 start_time := p.start_time, end_time := c.end_time : SubtitleLine }]) false
            hacc2_se
            (List.pairwise_append.mpr ⟨(List.pairwise_append.mp hacc_pw').1,
              List.pairwise_singleton _ _,
              fun a ha x hx => by
                rcases List.mem_singleton.mp hx with rfl
                exact hcrossp a ha⟩)
            (fun x hx => hrest_se x (List.mem_cons_of_mem _ hx))
            ((List.pairwise_cons.mp hrest_pw).2)
            (by
              intro a ha c2 hc2
              rcases List.mem_append.mp ha with ha | ha
              · exact hcross a ((List.dropLast_sublist _).subset ha) c2
                  (List.mem_cons_of_mem _ hc2)
              · rcases List.mem_singleton.mp ha with rfl
                exact hcross p hp_mem c2 (List.mem_cons_of_mem _ hc2))
          refine ⟨h.1, h.2.1, ?_⟩
          have h3 := h.2.2
          have hmapeq : (acc.dropLast ++
              [{ text := if eqIgnoreAsciiCase p.text c.text = true then p.text
                  else if p.text.length + c.text.length ≤ LINE_MAX_WORD_LENGTH then
                    p.text ++ c.text
                  else p.text ++ "\n" ++ c.text,
                 start_time := p.start_time, end_time := c.end_time : SubtitleLine }]).map
                SubtitleLine.start_time = acc.map SubtitleLine.start_time := by
            conv_rhs => rw [← hdecomp]
            simp
          rw [List.map_append, hmapeq] at h3
          refine h3.trans ?_
          rw [List.map_append]
          refine List.Sublist.append_left ?_ _
          simp only [List.map_cons]
          exact List.sublist_cons_self _ _
        · rw [if_neg hlines]
          exact hpush _
      · simp only [hguard, Bool.false_eq_true, if_false]
        exact hpush _

/-- **C5** (monotonic time invariant): for word lists with `start ≤ end` per
word and non-decreasing start times, every `SubtitleLine` produced by
`split_text_by_punctuation` satisfies `start_time ≤ end_time`; and for block
lists with `start_time ≤ end_time` in non-decreasing `start_time` order,
every block produced by `merge_subtitles` satisfies `start_time ≤ end_time`
and the merged output stays in non-decreasing `start_time` order matching
the input order (its start times form an order-preserving sublist of the
input's). -/
theorem time_monotonicity :
    (∀ (words : List Word) (tokens : List String) (out : List SubtitleLine),
      words.Pairwise (fun a b => a.start ≤ b.start) →
      (∀ w ∈ words, w.start ≤ w.end_) →
      split_text_by_punctuation words tokens = some out →
      ∀ l ∈ out, l.start_time ≤ l.end_time) ∧
    (∀ blocks : List SubtitleLine,
      (∀ b ∈ blocks, b.start_time ≤ b.end_time) →
      blocks.Pairwise (fun a b => a.start_time ≤ b.start_time) →
      (∀ b ∈ merge_subtitles blocks, b.start_time ≤ b.end_time) ∧
      (merge_subtitles blocks).Pairwise (fun a b => a.start_time ≤ b.start_time) ∧
      ((merge_subtitles blocks).map SubtitleLine.start_time).Sublist
        (blocks.map SubtitleLine.start_time)) := by
  constructor
  · intro words tokens out hsorted hse hout
    cases words with
    | nil => cases hout
    | cons w0 rest =>
      simp only [split_text_by_punctuation] at hout
      by_cases hfast : (w0 :: rest).length ≤ LINE_MAX_WORD_LENGTH
      · rw [if_pos hfast] at hout
        rcases Option.some.injEq _ _ ▸ hout with rfl
        intro l hl
        rcases List.mem_singleton.mp hl with rfl
        have hne : w0 :: rest ≠ [] := List.cons_ne_nil _ _
        calc w0.start ≤ ((w0 :: rest).getLast hne).start :=
              start_le_getLast_start _ hne hsorted w0 (List.mem_cons_self _ _)
        _ ≤ ((w0 :: rest).getLast hne).end_ := hse _ (List.getLast_mem hne)
      · rw [if_neg hfast] at hout
        rcases Option.some.injEq _ _ ▸ hout with rfl
        exact split_general_time (w0 :: rest)
          (match_segments tokens (w0 :: rest) (List.replicate (w0 :: rest).length false))
          (by rw [match_segments_length, List.length_replicate])
          hsorted hse
  · intro blocks hse hpw
    have h := mergeLoop_time blocks [] false (by intro b hb; cases hb)
      List.Pairwise.nil hse hpw (by intro a ha; cases ha)
    rw [List.nil_append] at h
    exact h

/-- Witness for `time_monotonicity`. -/
theorem time_monotonicity_witness :
    (∀ l ∈ [({ text := "a", start_time := 0, end_time := 1 } : SubtitleLine)],
      l.start_time ≤ l.end_time) ∧
    ((∀ b ∈ merge_subtitles [({ text := "a", start_time := 0, end_time := 1 } : SubtitleLine)],
        b.start_time ≤ b.end_time) ∧
      (merge_subtitles [({ text := "a", start_time := 0, end_time := 1 } : SubtitleLine)]).Pairwise
        (fun a b => a.start_time ≤ b.start_time) ∧
      ((merge_subtitles [({ text := "a", start_time := 0, end_time := 1 } : SubtitleLine)]).map
          SubtitleLine.start_time).Sublist
        ([({ text := "a", start_time := 0, end_time := 1 } : SubtitleLine)].map
          SubtitleLine.start_time)) :=
  ⟨time_monotonicity.1 [⟨0, 1, "a"⟩] [] _ (by simp) (by norm_num)
      (by simp [split_text_by_punctuation, LINE_MAX_WORD_LENGTH, String.join]),
    time_monotonicity.2 [⟨"a", 0, 1⟩] (by norm_num) (by simp)⟩
/-! ### String-join helper lemmas -/

theorem stringFoldl_append_data (l : List String) :
    ∀ a : String, (l.foldl (· ++ ·) a).data = a.data ++ (l.map String.data).flatten := by
  induction l with
  | nil => intro a; simp
  | cons s l ih =>
    intro a
    simp only [List.foldl_cons, List.map_cons, List.flatten]
    rw [ih (a ++ s)]
    simp

theorem stringJoin_data (l : List String) :
    (String.join l).data = (l.map String.data).flatten := by
  rw [String.join, stringFoldl_append_data]
  rfl

theorem stringJoin_nil : String.join [] = "" := rfl

theorem stringJoin_cons (s : String) (l : List String) :
    String.join (s :: l) = s ++ String.join l := by
  apply String.ext
  simp [stringJoin_data]

theorem stringJoin_append (l1 l2 : List String) :
    String.join (l1 ++ l2) = String.join l1 ++ String.join l2 := by
  apply String.ext
  simp [stringJoin_data]

theorem string_append_empty (s : String) : s ++ "" = s := by
  apply String.ext
  simp

theorem string_empty_append (s : String) : "" ++ s = s := by
  apply String.ext
  simp

/-! ### Trimming a whitespace-free string is the identity -/

theorem dropWhile_eq_self_of_none {p : Char → Bool} (l : List Char)
    (h : ∀ c ∈ l, p c = false) : l.dropWhile p = l := by
  cases l with
  | nil => rfl
  | cons c cs =>
    rw [List.dropWhile_cons, h c (List.mem_cons_self _ _)]
    simp

theorem rustTrim_eq_self (s : String)
    (h : ∀ c ∈ s.data, rustIsWhitespace c = false) : rustTrim s = s := by
  rw [rustTrim, dropWhile_eq_self_of_none s.data h,
    dropWhile_eq_self_of_none s.data.reverse (fun c hc => h c (List.mem_reverse.mp hc)),
    List.reverse_reverse]

/-! ### The word walk preserves the concatenated text -/

theorem splitLoop_concat (ps : List (Word × Bool)) :
    ∀ st : SplitSt,
    (∀ p ∈ ps, ∀ c ∈ p.1.word.data, rustIsWhitespace c = false) →
    (∀ c ∈ st.current_line.data, rustIsWhitespace c = false) →
    (String.join ((splitLoop ps st).result.map SubtitleLine.text) ++
        (splitLoop ps st).current_line =
      String.join (st.result.map SubtitleLine.text) ++ st.current_line ++
        String.join (ps.map (fun p => p.1.word))) ∧
    (∀ c ∈ (splitLoop ps st).current_line.data, rustIsWhitespace c = false) := by
  induction ps with
  | nil =>
    intro st _ hcl
    refine ⟨?_, hcl⟩
    show String.join (st.result.map SubtitleLine.text) ++ st.current_line =
      String.join (st.result.map SubtitleLine.text) ++ st.current_line ++ String.join []
    rw [stringJoin_nil, string_append_empty]
  | cons p rest ih =>
    obtain ⟨w, flag⟩ := p
    intro st hws hcl
    have hw_ws : ∀ c ∈ w.word.data, rustIsWhitespace c = false :=
      hws (w, flag) (List.mem_cons_self _ _)
    have hcl2 : ∀ c ∈ (st.current_line ++ w.word).data, rustIsWhitespace c = false := by
      intro c hc
      rw [String.data_append] at hc
      rcases List.mem_append.mp hc with hc | hc
      · exact hcl c hc
      · exact hw_ws c hc
    simp only [splitLoop]
    by_cases hb : breakCond w flag (st.char_count + w.word.length) (w.end_ - st.current_start) = true
    · rw [if_pos hb]
      cases rest with
      | nil =>
        refine ⟨?_, by intro c hc; cases hc⟩
        show String.join ((st.result ++
            [{ text := rustTrim (st.current_line ++ w.word),
               start_time := st.current_start, end_time := w.end_ : SubtitleLine }]).map
              SubtitleLine.text) ++ "" =
          String.join (st.result.map SubtitleLine.text) ++ st.current_line ++
            String.join [w.word]
        rw [rustTrim_eq_self _ hcl2]
        simp only [List.map_append, List.map_cons, List.map_nil, stringJoin_append,
          stringJoin_cons, stringJoin_nil, string_append_empty, String.append_assoc]
      | cons q0 rest2 =>
        have h := ih
          { result := st.result ++
              [{ text := rustTrim (st.current_line ++ w.word),
                 start_time := st.current_start, end_time := w.end_ }],
            current_line := "",
            current_start := q0.1.start,
            char_count := 0 }
          (fun q hq => hws q (List.mem_cons_of_mem _ hq))
          (by intro c hc; cases hc)
        refine ⟨?_, h.2⟩
        rw [h.1, rustTrim_eq_self _ hcl2]
        simp only [List.map_append, List.map_cons, List.map_nil, stringJoin_append,
          stringJoin_cons, stringJoin_nil, string_append_empty, string_empty_append,
          String.append_assoc]
    · rw [if_neg hb]
      have h := ih
        { result := st.result, current_line := st.current_line ++ w.word,
          current_start := st.current_start, char_count := st.char_count + w.word.length }
        (fun q hq => hws q (List.mem_cons_of_mem _ hq)) hcl2
      refine ⟨?_, h.2⟩
      rw [h.1]
      simp only [List.map_cons, stringJoin_cons, String.append_assoc]

theorem split_general_concat (words : List Word) (flags : List Bool)
    (hlen : words.length ≤ flags.length)
    (hws : ∀ w ∈ words, ∀ c ∈ w.word.data, rustIsWhitespace c = false) :
    String.join ((split_general words flags).map SubtitleLine.text) =
      String.join (words.map Word.word) := by
  have hzipmap : (words.zip flags).map (fun p => p.1.word) = words.map Word.word := by
    have h1 : (words.zip flags).map Prod.fst = words := List.map_fst_zip words flags hlen
    calc (words.zip flags).map (fun p => p.1.word)
        = ((words.zip flags).map Prod.fst).map Word.word := by rw [List.map_map]; rfl
    _ = words.map Word.word := by rw [h1]
  have hzip_ws : ∀ p ∈ words.zip flags, ∀ c ∈ p.1.word.data, rustIsWhitespace c = false := by
    intro p hp
    obtain ⟨a, b⟩ := p
    exact hws a (List.of_mem_zip hp).1
  have hmain := splitLoop_concat (words.zip flags)
    { result := [], current_line := "",
      current_start := match words with | [] => 0 | w :: _ => w.start,
      char_count := 0 }
    hzip_ws (by intro c hc; cases hc)
  rcases hmain with ⟨hconcat, hclws⟩
  rw [hzipmap] at hconcat
  simp only [List.map_nil, stringJoin_nil, string_empty_append] at hconcat
  simp only [split_general]
  by_cases hemp :
      (splitLoop (words.zip flags)
        { result := [], current_line := "",
          current_start := match words with | [] => 0 | w :: _ => w.start,
          char_count := 0 }).current_line.isEmpty = true
  · rw [if_pos hemp]
    have : (splitLoop (words.zip flags)
        { result := [], current_line := "",
          current_start := match words with | [] => 0 | w :: _ => w.start,
          char_count := 0 }).current_line = "" := by
      exact (String.isEmpty_iff _).mp hemp
    rw [this, string_append_empty] at hconcat
    exact hconcat
  · rw [if_neg hemp]
    cases hg : (splitLoop (words.zip flags)
        { result := [], current_line := "",
          current_start := match words with | [] => 0 | w :: _ => w.start,
          char_count := 0 }).result.getLast? with
    | none =>
      cases hd : decide ((splitLoop (words.zip flags)
          { result := [], current_line := "",
            current_start := match words with | [] => 0 | w :: _ => w.start,
            char_count := 0 }).char_count ≤ LINE_MIN_WORD_LENGTH / 2) <;>
      · simp only [List.map_append, List.map_cons, List.map_nil]
        rw [rustTrim_eq_self _ hclws]
        simp only [stringJoin_append, stringJoin_cons, stringJoin_nil, string_append_empty]
        exact hconcat
    | some last_line =>
      have hdecomp := List.dropLast_append_getLast? last_line (Option.mem_def.mpr hg)
      cases hd : decide ((splitLoop (words.zip flags)
          { result := [], current_line := "",
            current_start := match words with | [] => 0 | w :: _ => w.start,
            char_count := 0 }).char_count ≤ LINE_MIN_WORD_LENGTH / 2) with
      | false =>
        simp only [List.map_append, List.map_cons, List.map_nil]
        rw [rustTrim_eq_self _ hclws]
        simp only [stringJoin_append, stringJoin_cons, stringJoin_nil, string_append_empty]
        exact hconcat
      | true =>
        simp only [List.map_append, List.map_cons, List.map_nil]
        rw [rustTrim_eq_self _ hclws]
        rw [← hconcat]
        conv_rhs => rw [← hdecomp]
        simp only [List.map_append, List.map_cons, List.map_nil, stringJoin_append,
          stringJoin_cons, stringJoin_nil, string_append_empty, String.append_assoc]

/-- **C2 counterexample**: the concatenation invariant fails as stated.  For
17 words of text `"a "` (trailing space), the punctuation rule (space is in
the punctuation set) breaks after every 5th word and `str::trim` removes the
trailing space of each emitted line, so the concatenation of the output
texts (30 characters) differs from the concatenation of the inputs (34
characters). -/
theorem split_concat_cex :
    (split_text_by_punctuation
        [⟨0, 0, "a "⟩, ⟨0, 0, "a "⟩, ⟨0, 0, "a "⟩, ⟨0, 0, "a "⟩, ⟨0, 0, "a "⟩,
         ⟨0, 0, "a "⟩, ⟨0, 0, "a "⟩, ⟨0, 0, "a "⟩, ⟨0, 0, "a "⟩, ⟨0, 0, "a "⟩,
         ⟨0, 0, "a "⟩, ⟨0, 0, "a "⟩, ⟨0, 0, "a "⟩, ⟨0, 0, "a "⟩, ⟨0, 0, "a "⟩,
         ⟨0, 0, "a "⟩, ⟨0, 0, "a "⟩] []).map
      (fun out => String.join (out.map SubtitleLine.text)) ≠
    some (String.join
      (([⟨0, 0, "a "⟩, ⟨0, 0, "a "⟩, ⟨0, 0, "a "⟩, ⟨0, 0, "a "⟩, ⟨0, 0, "a "⟩,
         ⟨0, 0, "a "⟩, ⟨0, 0, "a "⟩, ⟨0, 0, "a "⟩, ⟨0, 0, "a "⟩, ⟨0, 0, "a "⟩,
         ⟨0, 0, "a "⟩, ⟨0, 0, "a "⟩, ⟨0, 0, "a "⟩, ⟨0, 0, "a "⟩, ⟨0, 0, "a "⟩,
         ⟨0, 0, "a "⟩, ⟨0, 0, "a "⟩] : List Word).map Word.word)) := by
  simp +decide [split_text_by_punctuation, match_segments, msOuter, split_general,
    splitLoop, breakCond, is_number, rustTrim, rustIsWhitespace, punctuation,
    LINE_MAX_WORD_LENGTH, LINE_MIN_WORD_LENGTH, LINE_MAX_DURATION, String.join]

/-- **C2 amended** (concatenation invariant, whitespace-free inputs): for
every non-empty utterance none of whose word texts contains a whitespace
character (so the `str::trim` at line emission is the identity), the
concatenation of the texts of all emitted `SubtitleLine`s equals the
concatenation of the input word texts. -/
theorem split_concat_whitespace_free (words : List Word) (tokens : List String)
    (out : List SubtitleLine) (hne : words ≠ [])
    (hws : ∀ w ∈ words, ∀ c ∈ w.word.data, rustIsWhitespace c = false)
    (hout : split_text_by_punctuation words tokens = some out) :
    String.join (out.map SubtitleLine.text) = String.join (words.map Word.word) := by
  cases words with
  | nil => cases hout
  | cons w0 rest =>
    simp only [split_text_by_punctuation] at hout
    by_cases hfast : (w0 :: rest).length ≤ LINE_MAX_WORD_LENGTH
    · rw [if_pos hfast] at hout
      rcases Option.some.injEq _ _ ▸ hout with rfl
      rw [List.map_cons, List.map_nil, stringJoin_cons, stringJoin_nil, string_append_empty]
    · rw [if_neg hfast] at hout
      rcases Option.some.injEq _ _ ▸ hout with rfl
      exact split_general_concat (w0 :: rest) _
        (by rw [match_segments_length, List.length_replicate]) hws

/-- Witness for `split_concat_whitespace_free`. -/
theorem split_concat_whitespace_free_witness :
    String.join ([({ text := "abcd", start_time := 0, end_time := 2 } : SubtitleLine)].map
        SubtitleLine.text) =
      String.join (([⟨0, 1, "ab"⟩, ⟨1, 2, "cd"⟩] : List Word).map Word.word) :=
  split_concat_whitespace_free [⟨0, 1, "ab"⟩, ⟨1, 2, "cd"⟩] [] _ (by simp)
    (by decide)
    (by simp [split_text_by_punctuation, LINE_MAX_WORD_LENGTH, String.join])
/-! ### Length bounds for the Line Splitter -/

theorem rustTrim_length_le (s : String) : (rustTrim s).length ≤ s.length := by
  rw [rustTrim]
  show (((s.data.dropWhile rustIsWhitespace).reverse.dropWhile rustIsWhitespace).reverse).length ≤
    s.data.length
  rw [List.length_reverse]
  calc ((s.data.dropWhile rustIsWhitespace).reverse.dropWhile rustIsWhitespace).length
      ≤ (s.data.dropWhile rustIsWhitespace).reverse.length :=
        (List.dropWhile_sublist _).length_le
  _ = (s.data.dropWhile rustIsWhitespace).length := List.length_reverse _
  _ ≤ s.data.length := (List.dropWhile_sublist _).length_le

theorem splitLoop_length_bound (ps : List (Word × Bool)) :
    ∀ st : SplitSt,
    (∀ p ∈ ps, p.2 = true ∧ p.1.word.length = 1 ∧ is_number p.1 = false) →
    st.char_count + 1 ≤ LINE_MAX_WORD_LENGTH →
    st.current_line.length = st.char_count →
    (∀ l ∈ st.result, l.text.length ≤ LINE_MAX_WORD_LENGTH) →
    (∀ l ∈ (splitLoop ps st).result, l.text.length ≤ LINE_MAX_WORD_LENGTH) ∧
    (splitLoop ps st).char_count + 1 ≤ LINE_MAX_WORD_LENGTH ∧
    (splitLoop ps st).current_line.length = (splitLoop ps st).char_count := by
  induction ps with
  | nil =>
    intro st _ hcc hcl hres
    exact ⟨hres, hcc, hcl⟩
  | cons p rest ih =>
    obtain ⟨w, flag⟩ := p
    intro st hps hcc hcl hres
    obtain ⟨hflag, hlen1, hnum⟩ := hps (w, flag) (List.mem_cons_self _ _)
    simp only at hflag hlen1 hnum
    have hlen' : (st.current_line ++ w.word).length = st.char_count + w.word.length := by
      rw [String.length_append, hcl]
    simp only [splitLoop]
    by_cases hb : breakCond w flag (st.char_count + w.word.length) (w.end_ - st.current_start) = true
    · rw [if_pos hb]
      have hemitted : (rustTrim (st.current_line ++ w.word)).length ≤ LINE_MAX_WORD_LENGTH := by
        calc (rustTrim (st.current_line ++ w.word)).length
            ≤ (st.current_line ++ w.word).length := rustTrim_length_le _
        _ = st.char_count + w.word.length := hlen'
        _ ≤ LINE_MAX_WORD_LENGTH := by rw [hlen1]; omega
      cases rest with
      | nil =>
        refine ⟨?_, by simp [splitLoop, LINE_MAX_WORD_LENGTH], rfl⟩
        intro l hl
        rcases List.mem_append.mp hl with hl | hl
        · exact hres l hl
        · rcases List.mem_singleton.mp hl with rfl
          exact hemitted
      | cons q0 rest2 =>
        apply ih
        · intro q hq; exact hps q (List.mem_cons_of_mem _ hq)
        · simp [LINE_MAX_WORD_LENGTH]
        · rfl
        · intro l hl
          rcases List.mem_append.mp hl with hl | hl
          · exact hres l hl
          · rcases List.mem_singleton.mp hl with rfl
            exact hemitted
    · rw [if_neg hb]
      have hcc' : st.char_count + w.word.length + 1 ≤ LINE_MAX_WORD_LENGTH := by
        rw [hlen1]
        by_contra hgt
        push_neg at hgt
        have h16 : decide (LINE_MAX_WORD_LENGTH ≤ st.char_count + w.word.length) = true := by
          rw [hlen1]
          simp only [decide_eq_true_eq]
          omega
        apply hb
        rw [breakCond, hflag, hnum, h16]
        simp
      apply ih
      · intro q hq; exact hps q (List.mem_cons_of_mem _ hq)
      · exact hcc'
      · exact hlen'
      · exact hres

theorem split_general_length (words : List Word) (flags : List Bool)
    (hflags : flags = List.replicate words.length true)
    (hwords : ∀ w ∈ words, w.word.length = 1 ∧ is_number w = false) :
    (∀ l ∈ (split_general words flags).dropLast, l.text.length ≤ LINE_MAX_WORD_LENGTH) ∧
    (∀ l ∈ split_general words flags,
      l.text.length ≤ LINE_MAX_WORD_LENGTH + LINE_MIN_WORD_LENGTH / 2) := by
  cases words with
  | nil =>
    constructor <;> intro l hl <;> simp +decide [split_general, splitLoop] at hl
  | cons w0 wrest =>
  have hzip : ∀ p ∈ (w0 :: wrest).zip flags, p.2 = true ∧ p.1.word.length = 1 ∧
      is_number p.1 = false := by
    intro p hp
    obtain ⟨a, b⟩ := p
    have hm := List.of_mem_zip hp
    refine ⟨?_, (hwords a hm.1).1, (hwords a hm.1).2⟩
    have := hm.2
    rw [hflags] at this
    exact List.eq_of_mem_replicate this
  have hmain := splitLoop_length_bound ((w0 :: wrest).zip flags)
    { result := [], current_line := "", current_start := w0.start, char_count := 0 }
    hzip (by simp [LINE_MAX_WORD_LENGTH]) rfl (by intro l hl; cases hl)
  obtain ⟨hres, hcc, hclen⟩ := hmain
  simp only [split_general]
  by_cases hemp :
      (splitLoop ((w0 :: wrest).zip flags)
        { result := [], current_line := "", current_start := w0.start, char_count := 0 }).current_line.isEmpty = true
  · rw [if_pos hemp]
    refine ⟨?_, ?_⟩
    · intro l hl
      exact hres l ((List.dropLast_sublist _).subset hl)
    · intro l hl
      calc l.text.length ≤ LINE_MAX_WORD_LENGTH := hres l hl
      _ ≤ LINE_MAX_WORD_LENGTH + LINE_MIN_WORD_LENGTH / 2 := Nat.le_add_right _ _
  · rw [if_neg hemp]
    cases hg : (splitLoop ((w0 :: wrest).zip flags)
        { result := [], current_line := "", current_start := w0.start, char_count := 0 }).result.getLast? with
    | none =>
      cases hd : decide ((splitLoop ((w0 :: wrest).zip flags)
          { result := [], current_line := "", current_start := w0.start, char_count := 0 }).char_count ≤ LINE_MIN_WORD_LENGTH / 2) <;>
      · constructor
        · intro l hl
          rw [List.dropLast_concat] at hl
          exact hres l hl
        · intro l hl
          rcases List.mem_append.mp hl with hl | hl
          · calc l.text.length ≤ LINE_MAX_WORD_LENGTH := hres l hl
            _ ≤ LINE_MAX_WORD_LENGTH + LINE_MIN_WORD_LENGTH / 2 := Nat.le_add_right _ _
          · rcases List.mem_singleton.mp hl with rfl
            calc (rustTrim _).length ≤ _ := rustTrim_length_le _
            _ = _ := hclen
            _ ≤ LINE_MAX_WORD_LENGTH + LINE_MIN_WORD_LENGTH / 2 := by
                simp only [LINE_MAX_WORD_LENGTH, LINE_MIN_WORD_LENGTH] at hcc ⊢
                omega
    | some last_line =>
      have hlast_mem : last_line ∈ (splitLoop ((w0 :: wrest).zip flags)
          { result := [], current_line := "", current_start := w0.start, char_count := 0 }).result := List.mem_of_getLast?_eq_some hg
      cases hd : decide ((splitLoop ((w0 :: wrest).zip flags)
          { result := [], current_line := "", current_start := w0.start, char_count := 0 }).char_count ≤ LINE_MIN_WORD_LENGTH / 2) with
      | false =>
        constructor
        · intro l hl
          rw [List.dropLast_concat] at hl
          exact hres l hl
        · intro l hl
          rcases List.mem_append.mp hl with hl | hl
          · calc l.text.length ≤ LINE_MAX_WORD_LENGTH := hres l hl
            _ ≤ LINE_MAX_WORD_LENGTH + LINE_MIN_WORD_LENGTH / 2 := Nat.le_add_right _ _
          · rcases List.mem_singleton.mp hl with rfl
            calc (rustTrim _).length ≤ _ := rustTrim_length_le _
            _ = _ := hclen
            _ ≤ LINE_MAX_WORD_LENGTH + LINE_MIN_WORD_LENGTH / 2 := by
                simp only [LINE_MAX_WORD_LENGTH, LINE_MIN_WORD_LENGTH] at hcc ⊢
                omega
      | true =>
        have hcc5 := of_decide_eq_true hd
        constructor
        · intro l hl
          rw [List.dropLast_concat] at hl
          exact hres l ((List.dropLast_sublist _).subset hl)
        · intro l hl
          rcases List.mem_append.mp hl with hl | hl
          · calc l.text.length ≤ LINE_MAX_WORD_LENGTH :=
                hres l ((List.dropLast_sublist _).subset hl)
            _ ≤ LINE_MAX_WORD_LENGTH + LINE_MIN_WORD_LENGTH / 2 := Nat.le_add_right _ _
          · rcases List.mem_singleton.mp hl with rfl
            show (last_line.text ++ rustTrim _).length ≤ _
            rw [String.length_append]
            have h1 : last_line.text.length ≤ LINE_MAX_WORD_LENGTH := hres last_line hlast_mem
            have h2 : (rustTrim ((splitLoop ((w0 :: wrest).zip flags)
                { result := [], current_line := "", current_start := w0.start,
                  char_count := 0 }).current_line)).length ≤ LINE_MIN_WORD_LENGTH / 2 :=
              le_trans (le_trans (rustTrim_length_le _) (le_of_eq hclen)) hcc5
            omega

/-- **C3 counterexample**: the length ceiling fails as stated.  17 words of
text `"ab"` with the (realistic) single-segment tokenization of the full
text: the alignment flags are false everywhere except the last word, the
length rule is suppressed until the final word, and one 34-character line is
emitted whose words are not numeric — well above `LINE_MAX_WORD_LENGTH = 16`
with no single numeric token involved. -/
theorem split_length_ceiling_cex :
    (split_text_by_punctuation
        [⟨0, 0, "ab"⟩, ⟨0, 0, "ab"⟩, ⟨0, 0, "ab"⟩, ⟨0, 0, "ab"⟩, ⟨0, 0, "ab"⟩,
         ⟨0, 0, "ab"⟩, ⟨0, 0, "ab"⟩, ⟨0, 0, "ab"⟩, ⟨0, 0, "ab"⟩, ⟨0, 0, "ab"⟩,
         ⟨0, 0, "ab"⟩, ⟨0, 0, "ab"⟩, ⟨0, 0, "ab"⟩, ⟨0, 0, "ab"⟩, ⟨0, 0, "ab"⟩,
         ⟨0, 0, "ab"⟩, ⟨0, 0, "ab"⟩]
        ["ababababababababababababababababab"]).map
      (List.map (fun l => l.text.length)) = some [34] ∧
    LINE_MAX_WORD_LENGTH < 34 ∧
    (∀ w ∈ ([⟨0, 0, "ab"⟩, ⟨0, 0, "ab"⟩, ⟨0, 0, "ab"⟩, ⟨0, 0, "ab"⟩, ⟨0, 0, "ab"⟩,
         ⟨0, 0, "ab"⟩, ⟨0, 0, "ab"⟩, ⟨0, 0, "ab"⟩, ⟨0, 0, "ab"⟩, ⟨0, 0, "ab"⟩,
         ⟨0, 0, "ab"⟩, ⟨0, 0, "ab"⟩, ⟨0, 0, "ab"⟩, ⟨0, 0, "ab"⟩, ⟨0, 0, "ab"⟩,
         ⟨0, 0, "ab"⟩, ⟨0, 0, "ab"⟩] : List Word), is_number w = false) := by
  refine ⟨?_, by decide, by decide⟩
  simp +decide [split_text_by_punctuation, match_segments, msOuter, msInner,
    split_general, splitLoop, breakCond, is_number, rustTrim, rustIsWhitespace,
    punctuation, LINE_MAX_WORD_LENGTH, LINE_MIN_WORD_LENGTH, LINE_MAX_DURATION]

/-- **C3 amended** (length ceiling under ideal alignment): in the general
path (more than `LINE_MAX_WORD_LENGTH` words), provided the alignment flags
are all true and every word text is a single non-numeric character, every
emitted `SubtitleLine` has at most `LINE_MAX_WORD_LENGTH = 16` characters —
except that the final line may reach
`LINE_MAX_WORD_LENGTH + LINE_MIN_WORD_LENGTH / 2 = 21` characters when the
short trailing remainder is merged into it.  (As stated the claim is false:
a false alignment flag or a multi-character or numeric token suppresses or
overshoots the break, with no bound; see the counterexample.) -/
theorem split_length_ceiling_amended (words : List Word) (tokens : List String)
    (out : List SubtitleLine)
    (hgen : LINE_MAX_WORD_LENGTH < words.length)
    (hflags : match_segments tokens words (List.replicate words.length false) =
      List.replicate words.length true)
    (hwords : ∀ w ∈ words, w.word.length = 1 ∧ is_number w = false)
    (hout : split_text_by_punctuation words tokens = some out) :
    (∀ l ∈ out.dropLast, l.text.length ≤ LINE_MAX_WORD_LENGTH) ∧
    (∀ l ∈ out, l.text.length ≤ LINE_MAX_WORD_LENGTH + LINE_MIN_WORD_LENGTH / 2) := by
  cases words with
  | nil => cases hout
  | cons w0 wrest =>
    simp only [split_text_by_punctuation] at hout
    rw [if_neg (by omega)] at hout
    rcases Option.some.injEq _ _ ▸ hout with rfl
    rw [hflags]
    exact split_general_length (w0 :: wrest) _ rfl hwords

/-- Witness for `split_length_ceiling_amended`: 17 single-character words
with the word-by-word tokenization (all flags true). -/
theorem split_length_ceiling_amended_witness :
    (∀ l ∈ ([({ text := "aaaaaaaaaaaaaaaaa", start_time := 0, end_time := 0 } :
        SubtitleLine)] : List SubtitleLine).dropLast,
      l.text.length ≤ LINE_MAX_WORD_LENGTH) ∧
    (∀ l ∈ ([({ text := "aaaaaaaaaaaaaaaaa", start_time := 0, end_time := 0 } :
        SubtitleLine)] : List SubtitleLine),
      l.text.length ≤ LINE_MAX_WORD_LENGTH + LINE_MIN_WORD_LENGTH / 2) :=
  split_length_ceiling_amended
    [⟨0, 0, "a"⟩, ⟨0, 0, "a"⟩, ⟨0, 0, "a"⟩, ⟨0, 0, "a"⟩, ⟨0, 0, "a"⟩,
     ⟨0, 0, "a"⟩, ⟨0, 0, "a"⟩, ⟨0, 0, "a"⟩, ⟨0, 0, "a"⟩, ⟨0, 0, "a"⟩,
     ⟨0, 0, "a"⟩, ⟨0, 0, "a"⟩, ⟨0, 0, "a"⟩, ⟨0, 0, "a"⟩, ⟨0, 0, "a"⟩,
     ⟨0, 0, "a"⟩, ⟨0, 0, "a"⟩]
    ["a", "a", "a", "a", "a", "a", "a", "a", "a", "a", "a", "a", "a", "a", "a", "a", "a"]
    [{ text := "aaaaaaaaaaaaaaaaa", start_time := 0, end_time := 0 }]
    (by decide)
    (by simp +decide [match_segments, msOuter, msInner, List.replicate])
    (by decide)
    (by simp +decide [split_text_by_punctuation, match_segments, msOuter, msInner,
      split_general, splitLoop, breakCond, is_number, rustTrim, rustIsWhitespace,
      punctuation, LINE_MAX_WORD_LENGTH, LINE_MIN_WORD_LENGTH, LINE_MAX_DURATION])
/-! ### Cumulative character-count lemmas -/

theorem sumT_cons (t : String) (ts : List String) : sumT (t :: ts) = t.length + sumT ts := by
  simp [sumT]

theorem sumW_cons (w : Word) (ws : List Word) : sumW (w :: ws) = w.word.length + sumW ws := by
  simp [sumW]

theorem cumT_zero (ts : List String) : cumT ts 0 = 0 := rfl

theorem cumW_zero (ws : List Word) : cumW ws 0 = 0 := rfl

theorem cumT_nil (k : ℕ) : cumT [] k = 0 := by
  simp [cumT, sumT]

theorem cumW_nil (k : ℕ) : cumW [] k = 0 := by
  simp [cumW, sumW]

theorem cumT_cons (t : String) (ts : List String) (k : ℕ) :
    cumT (t :: ts) (k + 1) = t.length + cumT ts k := by
  simp [cumT, sumT, List.take_succ_cons]

theorem cumW_cons (w : Word) (ws : List Word) (k : ℕ) :
    cumW (w :: ws) (k + 1) = w.word.length + cumW ws k := by
  simp [cumW, sumW, List.take_succ_cons]

theorem cumT_mono (ts : List String) {k m : ℕ} (h : k ≤ m) : cumT ts k ≤ cumT ts m := by
  induction ts generalizing k m with
  | nil => simp [cumT_nil]
  | cons t ts ih =>
    cases k with
    | zero => simp [cumT_zero]
    | succ k =>
      cases m with
      | zero => omega
      | succ m =>
        rw [cumT_cons, cumT_cons]
        have := ih (k := k) (m := m) (by omega)
        omega

theorem cumW_mono (ws : List Word) {k m : ℕ} (h : k ≤ m) : cumW ws k ≤ cumW ws m := by
  induction ws generalizing k m with
  | nil => simp [cumW_nil]
  | cons w ws ih =>
    cases k with
    | zero => simp [cumW_zero]
    | succ k =>
      cases m with
      | zero => omega
      | succ m =>
        rw [cumW_cons, cumW_cons]
        have := ih (k := k) (m := m) (by omega)
        omega

theorem cumT_all (ts : List String) {k : ℕ} (h : ts.length ≤ k) : cumT ts k = sumT ts := by
  rw [cumT, List.take_of_length_le h]

theorem cumW_all (ws : List Word) {k : ℕ} (h : ws.length ≤ k) : cumW ws k = sumW ws := by
  rw [cumW, List.take_of_length_le h]

theorem cumT_add_drop (ts : List String) : ∀ (a k : ℕ),
    cumT ts (a + k) = cumT ts a + cumT (ts.drop a) k := by
  induction ts with
  | nil => intro a k; simp [cumT_nil]
  | cons t ts ih =>
    intro a k
    cases a with
    | zero => simp [cumT_zero]
    | succ a =>
      have hrw : a + 1 + k = (a + k) + 1 := by omega
      rw [hrw, cumT_cons, cumT_cons, List.drop_succ_cons, ih a k]
      omega

theorem cumW_add_drop (ws : List Word) : ∀ (b k : ℕ),
    cumW ws (b + k) = cumW ws b + cumW (ws.drop b) k := by
  induction ws with
  | nil => intro b k; simp [cumW_nil]
  | cons w ws ih =>
    intro b k
    cases b with
    | zero => simp [cumW_zero]
    | succ b =>
      have hrw : b + 1 + k = (b + k) + 1 := by omega
      rw [hrw, cumW_cons, cumW_cons, List.drop_succ_cons, ih b k]
      omega

theorem sumT_eq_cum_add_drop (ts : List String) (a : ℕ) :
    sumT ts = cumT ts a + sumT (ts.drop a) := by
  have h := cumT_add_drop ts a ts.length
  rw [cumT_all ts (k := a + ts.length) (by omega),
    cumT_all (ts.drop a) (k := ts.length) (by simp)] at h
  exact h

theorem sumW_eq_cum_add_drop (ws : List Word) (b : ℕ) :
    sumW ws = cumW ws b + sumW (ws.drop b) := by
  have h := cumW_add_drop ws b ws.length
  rw [cumW_all ws (k := b + ws.length) (by omega),
    cumW_all (ws.drop b) (k := ws.length) (by simp)] at h
  exact h

theorem cumW_pos (ws : List Word) (hne : ∀ w ∈ ws, w.word.length ≠ 0) {j : ℕ}
    (h1 : 1 ≤ j) (h2 : 0 < ws.length) : 0 < cumW ws j := by
  cases ws with
  | nil => simp at h2
  | cons w ws =>
    have hw := hne w (List.mem_cons_self _ _)
    calc 0 < w.word.length + cumW ws (j - 1) := by omega
    _ = cumW (w :: ws) ((j - 1) + 1) := (cumW_cons _ _ _).symm
    _ = cumW (w :: ws) j := by congr 1; omega

theorem cumW_strict (ws : List Word) (hne : ∀ w ∈ ws, w.word.length ≠ 0) {j b : ℕ}
    (hj : j < b) (hb : b ≤ ws.length) : cumW ws j < cumW ws b := by
  have hdecomp : cumW ws b = cumW ws j + cumW (ws.drop j) (b - j) := by
    have := cumW_add_drop ws j (b - j)
    rwa [show j + (b - j) = b by omega] at this
  have hpos : 0 < cumW (ws.drop j) (b - j) := by
    apply cumW_pos
    · intro w hw
      exact hne w ((List.drop_sublist _ _).subset hw)
    · omega
    · rw [List.length_drop]
      omega
  omega

/-! ### The inner alignment loop: specification -/

theorem msInner_spec (v_acc w_acc : List Char) (token_segments : List String)
    (word_segments : List Word) (w_idx : ℕ) (word_tokens : List Bool) :
    v_acc.length + sumT token_segments = w_acc.length + sumW word_segments →
    ∃ a b, msInner v_acc w_acc token_segments word_segments w_idx word_tokens =
        (a, b, word_tokens.set (w_idx + b - 1) true) ∧
      a ≤ token_segments.length ∧ b ≤ word_segments.length ∧
      v_acc.length + cumT token_segments a = w_acc.length + cumW word_segments b ∧
      (∀ j k, j < b → k ≤ a →
        v_acc.length + cumT token_segments k ≠ w_acc.length + cumW word_segments j) := by
  induction v_acc, w_acc, token_segments, word_segments, w_idx, word_tokens using msInner.induct
  case case1 v w ts ws wi f h =>
    intro hsum
    refine ⟨0, 0, ?_, by omega, by omega, ?_, ?_⟩
    · rw [msInner.eq_def, if_pos h]
      rfl
    · rw [cumT_zero, cumW_zero]
      omega
    · intro j k hj
      omega
  case case2 v w ts wi f h1 h2 wd ws ih =>
    intro hsum
    obtain ⟨a, b2, heq, ha, hb, hcum, hint⟩ := ih (by
      rw [sumW_cons] at hsum
      simp only [List.length_append]
      have hwd : wd.word.data.length = wd.word.length := rfl
      omega)
    refine ⟨a, b2 + 1, ?_, ha, by simpa using hb, ?_, ?_⟩
    · rw [msInner.eq_def, if_neg h1, if_pos h2]
      show (let r := msInner v (w ++ wd.word.data) ts ws (wi + 1) f
        ((r.1, r.2.1 + 1, r.2.2) : ℕ × ℕ × List Bool)) = _
      rw [heq]
      show ((a, b2 + 1, f.set (wi + 1 + b2 - 1) true) : ℕ × ℕ × List Bool) = _
      have : wi + 1 + b2 - 1 = wi + (b2 + 1) - 1 := by omega
      rw [this]
    · rw [cumW_cons]
      simp only [List.length_append] at hcum
      have hwd : wd.word.data.length = wd.word.length := rfl
      omega
    · intro j k hj hk
      cases j with
      | zero =>
        rw [cumW_zero]
        have := cumT_mono ts (k := 0) (m := k) (by omega)
        rw [cumT_zero] at this
        omega
      | succ j2 =>
        have := hint j2 k (by omega) hk
        rw [cumW_cons]
        simp only [List.length_append] at this
        have hwd : wd.word.data.length = wd.word.length := rfl
        omega
  case case3 v w ts wi f h1 h2 =>
    intro hsum
    exfalso
    simp only [sumW, List.map_nil, List.sum_nil] at hsum
    omega
  case case4 v w ws wi f h1 h2 t ts ih =>
    intro hsum
    have hv : v.length < w.length := by omega
    obtain ⟨a2, b, heq, ha, hb, hcum, hint⟩ := ih (by
      rw [sumT_cons] at hsum
      simp only [List.length_append]
      have ht : t.data.length = t.length := rfl
      omega)
    refine ⟨a2 + 1, b, ?_, by simpa using ha, hb, ?_, ?_⟩
    · rw [msInner.eq_def, if_neg h1, if_neg h2]
      show (let r := msInner (v ++ t.data) w ts ws wi f
        ((r.1 + 1, r.2.1, r.2.2) : ℕ × ℕ × List Bool)) = _
      rw [heq]
    · rw [cumT_cons]
      simp only [List.length_append] at hcum
      have ht : t.data.length = t.length := rfl
      omega
    · intro j k hj hk
      cases k with
      | zero =>
        rw [cumT_zero]
        have := cumW_mono ws (k := 0) (m := j) (by omega)
        rw [cumW_zero] at this
        omega
      | succ k2 =>
        have := hint j k2 hj (by omega)
        rw [cumT_cons]
        simp only [List.length_append] at this
        have ht : t.data.length = t.length := rfl
        omega
  case case5 v w ws wi f h1 h2 =>
    intro hsum
    exfalso
    simp only [sumT, List.map_nil, List.sum_nil] at hsum
    omega

/-! ### Boundary-set lemmas -/

theorem boundaryB_iff (tokens : List String) (n : ℕ) :
    boundaryB tokens n = true ↔ ∃ k, 1 ≤ k ∧ k ≤ tokens.length ∧ cumT tokens k = n := by
  rw [boundaryB, List.any_eq_true]
  constructor
  · rintro ⟨j, hj, hbeq⟩
    rw [List.mem_range] at hj
    refine ⟨j + 1, by omega, by omega, ?_⟩
    simpa using hbeq
  · rintro ⟨k, h1, h2, h3⟩
    refine ⟨k - 1, List.mem_range.mpr (by omega), ?_⟩
    have hk : k - 1 + 1 = k := by omega
    rw [hk, h3]
    simp

theorem boundaryB_shift (t : String) (ts : List String) (a M Y : ℕ)
    (ha : a ≤ ts.length) (hM : cumT (t :: ts) (a + 1) = M) (hY : 0 < Y) :
    boundaryB (t :: ts) (M + Y) = boundaryB (ts.drop a) Y := by
  have hiff : (∃ k, 1 ≤ k ∧ k ≤ (t :: ts).length ∧ cumT (t :: ts) k = M + Y) ↔
      (∃ k, 1 ≤ k ∧ k ≤ (ts.drop a).length ∧ cumT (ts.drop a) k = Y) := by
    constructor
    · rintro ⟨k, hk1, hk2, hk3⟩
      have hgt : a + 1 < k := by
        by_contra hle
        push_neg at hle
        have := cumT_mono (t :: ts) (k := k) (m := a + 1) hle
        omega
      refine ⟨k - (a + 1), by omega, ?_, ?_⟩
      · simp only [List.length_cons] at hk2
        simp only [List.length_drop]
        omega
      · have hsplit := cumT_add_drop (t :: ts) (a + 1) (k - (a + 1))
        rw [show (a + 1) + (k - (a + 1)) = k from by omega] at hsplit
        rw [List.drop_succ_cons] at hsplit
        rw [hk3, hM] at hsplit
        omega
    · rintro ⟨k, hk1, hk2, hk3⟩
      refine ⟨a + 1 + k, by omega, ?_, ?_⟩
      · simp only [List.length_drop] at hk2
        simp only [List.length_cons]
        omega
      · have hsplit := cumT_add_drop (t :: ts) (a + 1) k
        rw [List.drop_succ_cons] at hsplit
        rw [hk3, hM] at hsplit
        exact hsplit
  cases hL : boundaryB (t :: ts) (M + Y) <;> cases hR : boundaryB (ts.drop a) Y
  · rfl
  · exact absurd ((boundaryB_iff _ _).mpr (hiff.mpr ((boundaryB_iff _ _).mp hR)))
      (by rw [hL]; exact Bool.false_ne_true)
  · exact absurd ((boundaryB_iff _ _).mpr (hiff.mp ((boundaryB_iff _ _).mp hL)))
      (by rw [hR]; exact Bool.false_ne_true)
  · rfl

theorem getD_set_ne (l : List Bool) (i g : ℕ) (x : Bool) (h : i ≠ g) :
    (l.set i x).getD g false = l.getD g false := by
  simp [List.getD_eq_getElem?_getD, List.getElem?_set_ne h]

theorem getD_set_self (l : List Bool) (i : ℕ) (x : Bool) (h : i < l.length) :
    (l.set i x).getD i false = x := by
  simp [List.getD_eq_getElem?_getD, List.getElem?_set_self h]

/-! ### The outer alignment loop: specification -/

theorem msOuter_spec (token_segments : List String) (word_segments : List Word)
    (w_idx : ℕ) (word_tokens : List Bool) :
    (∀ w ∈ word_segments, w.word.length ≠ 0) →
    sumT token_segments = sumW word_segments →
    word_tokens.length = w_idx + word_segments.length →
    (∀ g, w_idx ≤ g → word_tokens.getD g false = false) →
    ∀ g, (msOuter token_segments word_segments w_idx word_tokens).getD g false =
      if g < w_idx then word_tokens.getD g false
      else decide (g < w_idx + word_segments.length) &&
        boundaryB token_segments (cumW word_segments (g - w_idx + 1)) := by
  induction token_segments, word_segments, w_idx, word_tokens using msOuter.induct
  case case2 tokens words wi f h =>
    intro hne hsum hlen hfalse g
    rw [msOuter]
    rotate_left
    · exact h
    rcases words with _ | ⟨w, ws⟩
    · by_cases hg : g < wi
      · rw [if_pos hg]
      · rw [if_neg hg]
        rw [hfalse g (by omega)]
        simp only [List.length_nil, Nat.add_zero]
        rw [decide_eq_false hg]
        simp
    · rcases tokens with _ | ⟨t, ts⟩
      · exfalso
        rw [sumW_cons] at hsum
        have := hne w (List.mem_cons_self _ _)
        simp only [sumT, List.map_nil, List.sum_nil] at hsum
        omega
      · exact (h t ts w ws rfl rfl).elim
  case case1 wi f t ts w ws r ih =>
    intro hne hsum hlen hfalse
    have hT : t.data.length = t.length := rfl
    have hW : w.word.data.length = w.word.length := rfl
    have hsum2 : t.data.length + sumT ts = w.word.data.length + sumW ws := by
      rw [sumT_cons, sumW_cons] at hsum
      omega
    obtain ⟨a, b, heq, ha, hb, hcum, hint⟩ :=
      msInner_spec t.data w.word.data ts ws (wi + 1) f hsum2
    have hidx : wi + 1 + b - 1 = wi + b := by omega
    rw [hidx] at heq
    have hr : r = (a, b, f.set (wi + b) true) := heq
    have hlenf : f.length = wi + 1 + ws.length := by
      simp only [List.length_cons] at hlen
      omega
    have hcum' : t.length + cumT ts a = w.word.length + cumW ws b := by
      omega
    have hne_ws : ∀ w2 ∈ ws, w2.word.length ≠ 0 :=
      fun w2 hw2 => hne w2 (List.mem_cons_of_mem _ hw2)
    have IH := ih
      (fun w2 hw2 => hne_ws w2 ((List.drop_sublist _ _).subset hw2))
      (by
        rw [hr]
        show sumT (ts.drop a) = sumW (ws.drop b)
        have h1 := sumT_eq_cum_add_drop ts a
        have h2 := sumW_eq_cum_add_drop ws b
        rw [sumT_cons, sumW_cons] at hsum
        omega)
      (by
        rw [hr]
        show (f.set (wi + b) true).length = wi + 1 + b + (ws.drop b).length
        rw [List.length_set, List.length_drop, hlenf]
        omega)
      (by
        simp only [hr]
        intro g hg
        rw [getD_set_ne f (wi + b) g true (by omega)]
        exact hfalse g (by omega))
    rw [hr] at IH
    simp only at IH
    intro g
    rw [msOuter]
    rw [heq]
    show (msOuter (ts.drop a) (ws.drop b) (wi + 1 + b) (f.set (wi + b) true)).getD g false = _
    rw [IH g]
    by_cases hg1 : g < wi
    · rw [if_pos (show g < wi + 1 + b by omega), if_pos hg1]
      exact getD_set_ne f (wi + b) g true (by omega)
    · rw [if_neg hg1]
      by_cases hg2 : g < wi + 1 + b
      · rw [if_pos hg2]
        by_cases hg3 : g = wi + b
        · subst hg3
          rw [getD_set_self f (wi + b) true (by omega)]
          have hrange : decide (wi + b < wi + (w :: ws).length) = true := by
            simp only [List.length_cons]
            exact decide_eq_true (by omega)
          rw [hrange]
          have hbnd : boundaryB (t :: ts) (cumW (w :: ws) (wi + b - wi + 1)) = true := by
            rw [show wi + b - wi + 1 = b + 1 from by omega, cumW_cons]
            apply (boundaryB_iff _ _).mpr
            refine ⟨a + 1, by omega, by simp only [List.length_cons]; omega, ?_⟩
            rw [cumT_cons]
            omega
          rw [hbnd]
          rfl
        · rw [getD_set_ne f (wi + b) g true (fun hcontra => hg3 hcontra.symm)]
          rw [hfalse g (by omega)]
          have hrange : decide (g < wi + (w :: ws).length) = true := by
            simp only [List.length_cons]
            exact decide_eq_true (by omega)
          rw [hrange]
          have hbnd : boundaryB (t :: ts) (cumW (w :: ws) (g - wi + 1)) = false := by
            have hj : g - wi < b := by omega
            rw [show g - wi + 1 = (g - wi) + 1 from rfl, cumW_cons]
            rw [← Bool.not_eq_true]
            intro hcontra
            obtain ⟨k, hk1, hk2, hk3⟩ := (boundaryB_iff _ _).mp hcontra
            simp only [List.length_cons] at hk2
            rw [show k = (k - 1) + 1 from by omega, cumT_cons] at hk3
            by_cases hka : k - 1 ≤ a
            · exact hint (g - wi) (k - 1) hj hka (by omega)
            · have hmono := cumT_mono ts (k := a) (m := k - 1) (by omega)
              have hstrict := cumW_strict ws hne_ws (j := g - wi) (b := b) hj hb
              omega
          rw [hbnd]
          simp
      · rw [if_neg hg2]
        have hlendrop : wi + 1 + b + (ws.drop b).length = wi + (w :: ws).length := by
          rw [List.length_drop]
          simp only [List.length_cons]
          omega
        rw [hlendrop]
        by_cases hg4 : g < wi + (w :: ws).length
        · rw [decide_eq_true hg4]
          have hb_lt : b < ws.length := by
            simp only [List.length_cons] at hg4
            omega
          have hYpos : 0 < cumW (ws.drop b) (g - (wi + 1 + b) + 1) :=
            cumW_pos (ws.drop b)
              (fun w2 hw2 => hne_ws w2 ((List.drop_sublist _ _).subset hw2))
              (by omega) (by rw [List.length_drop]; omega)
          have hX : cumW (w :: ws) (g - wi + 1) =
              (t.length + cumT ts a) + cumW (ws.drop b) (g - (wi + 1 + b) + 1) := by
            rw [show g - wi + 1 = (g - wi) + 1 from rfl, cumW_cons]
            have hsplitW := cumW_add_drop ws b (g - wi - b)
            rw [show b + (g - wi - b) = g - wi from by omega] at hsplitW
            rw [show g - (wi + 1 + b) + 1 = g - wi - b from by omega]
            omega
          rw [hX]
          rw [boundaryB_shift t ts a (t.length + cumT ts a)
            (cumW (ws.drop b) (g - (wi + 1 + b) + 1)) ha rfl hYpos]
        · rw [decide_eq_false hg4]
          simp

theorem string_length_ne_zero {s : String} (h : s ≠ "") : s.length ≠ 0 := by
  intro h0
  apply h
  cases s with
  | mk d =>
    have hd : d = [] := List.length_eq_zero.mp h0
    rw [hd]

theorem join_length_sumT (l : List String) : (String.join l).length = sumT l := by
  show (String.join l).data.length = sumT l
  rw [stringJoin_data, List.length_flatten, List.map_map]
  rfl

theorem join_length_sumW (ws : List Word) :
    (String.join (ws.map Word.word)).length = sumW ws := by
  rw [join_length_sumT]
  show (List.map String.length (List.map Word.word ws)).sum = sumW ws
  rw [List.map_map]
  rfl

theorem replicate_getD_false (n g : ℕ) :
    (List.replicate n false).getD g false = false := by
  induction n generalizing g with
  | zero => rfl
  | succ m ih =>
    cases g with
    | zero => rfl
    | succ k => exact ih k

/-- C4 (amended): when every word text is non-empty and the tokenizer
segmentation concatenates to the words' concatenated text, the flag produced
by `match_segments` at word index `i` is true exactly when the cumulative
character count of `words[0..=i]` equals the cumulative character count of
some non-empty prefix of the segment list. -/
theorem match_segments_boundary_amended (tokens : List String) (words : List Word)
    (hne : ∀ w ∈ words, w.word ≠ "")
    (hjoin : String.join tokens = String.join (words.map Word.word)) :
    ∀ i, i < words.length →
      ((match_segments tokens words (List.replicate words.length false)).getD i false = true ↔
        ∃ k, 1 ≤ k ∧ k ≤ tokens.length ∧ cumT tokens k = cumW words (i + 1)) := by
  intro i hi
  have hsum : sumT tokens = sumW words := by
    rw [← join_length_sumT, ← join_length_sumW, hjoin]
  have hs := msOuter_spec tokens words 0 (List.replicate words.length false)
    (fun w hw => string_length_ne_zero (hne w hw)) hsum
    (by rw [List.length_replicate]; omega)
    (fun g _ => replicate_getD_false _ _) i
  rw [match_segments, hs]
  rw [if_neg (by omega), decide_eq_true (by omega)]
  rw [Nat.sub_zero, Bool.true_and]
  exact boundaryB_iff tokens (cumW words (i + 1))

theorem match_segments_boundary_amended_witness :
    (match_segments ["ab"] [⟨0, 0, "a"⟩, ⟨0, 0, "b"⟩] (List.replicate 2 false)).getD 1 false
      = true := by
  apply (match_segments_boundary_amended ["ab"] [⟨0, 0, "a"⟩, ⟨0, 0, "b"⟩]
    (by
      intro w hw
      rcases List.mem_cons.mp hw with rfl | hw
      · decide
      rcases List.mem_cons.mp hw with rfl | hw
      · decide
      cases hw)
    rfl 1 (by decide)).mpr
  exact ⟨1, by decide, by decide, by decide⟩

/-- C4 is false as stated: with tokens `["a"]` and words of texts `"a"` and
`""`, the segmentation concatenates to the words' text and the cumulative
count of `words[0..=1]` (namely 1) equals that of the token prefix `["a"]`,
yet the flag at index 1 stays false — the loop stops once the token list is
exhausted and a trailing empty-text word is never marked. -/
theorem match_segments_boundary_cex :
    String.join ["a"] = String.join ([⟨0, 0, "a"⟩, ⟨0, 0, ""⟩].map Word.word) ∧
    (1 : ℕ) ≤ 1 ∧ 1 ≤ (["a"] : List String).length ∧
    cumT ["a"] 1 = cumW [⟨0, 0, "a"⟩, ⟨0, 0, ""⟩] 2 ∧
    (match_segments ["a"] [⟨0, 0, "a"⟩, ⟨0, 0, ""⟩] (List.replicate 2 false)).getD 1 false
      = false := by
  refine ⟨rfl, by decide, by decide, by decide, ?_⟩
  rw [match_segments, msOuter]
  rw [show msInner "a".data (Word.word ⟨0, 0, "a"⟩).data [] [⟨0, 0, ""⟩] (0 + 1)
        (List.replicate 2 false) = (0, 0, [true, false]) from by
    rw [msInner.eq_def, if_pos rfl]
    rfl]
  rw [msOuter]
  rotate_left
  · intro t ts w ws h1 h2
    simp at h1
  rfl
